import Mathlib

/-!
Shallow embedding of the message entity of `src/domain/msg/msg_entity.rs`
(himalaya). Pure Rust functions become Lean functions on `List Char` /
`String`; fallible functions return `Except String`; the panic in
`into_sendable_msg` is modelled by a dedicated outcome constructor.

External collaborators (the `regex`, `ammonia`, `html_escape`, `mailparse`
and `lettre` crates) are modelled by explicit Lean functions, each carrying
a comment stating which library behaviour it models and on which inputs the
model is faithful.
-/

set_option maxHeartbeats 1000000

namespace Himalaya

/-! ## Character classes and elementary scanners -/

/-- Whitespace class of the Rust `regex` crate (`\s` = Unicode White_Space).
Covers the ASCII whitespace characters and the non-ASCII White_Space code
points. -/
def isWS (c : Char) : Bool :=
  let n := c.toNat
  n == 32 || n == 9 || n == 10 || n == 13 || n == 11 || n == 12 ||
  n == 0x85 || n == 0xa0 || n == 0x1680 ||
  (decide (0x2000 ≤ n) && decide (n ≤ 0x200a)) ||
  n == 0x2028 || n == 0x2029 || n == 0x202f || n == 0x205f || n == 0x3000

/-- Grouping of a character list into maximal runs of whitespace and
non-whitespace characters (used to model the matches of the newline-merging
regex, which never cross a run boundary). -/
def wsTokens : List Char → List (List Char)
  | [] => []
  | c :: rest =>
    match wsTokens rest with
    | (d :: t) :: ts =>
      if isWS c = isWS d then (c :: d :: t) :: ts else [c] :: (d :: t) :: ts
    | _ => [[c]]

/-- Action of `Regex::new(r"(\r?\n\s*){2,}").replace_all(_, "\n\n")` on one
maximal whitespace run.  A match must start with `\r?\n`, each repetition
consumes one `\n` (plus whitespace), so the leftmost match inside a run
starts at the first `\n` of the run — or one character earlier when a `\r`
immediately precedes that `\n` — and greedily extends to the end of the run;
it exists exactly when the run contains at least two `\n`.  The match is
replaced by a literal `"\n\n"`. -/
def trWtoken (t : List Char) : List Char :=
  if isWS (t.headD 'a') then
    if 2 ≤ t.count '\n' then
      let p := t.takeWhile (fun c => c ≠ '\n')
      (if p.getLast? = some '\r' then p.dropLast else p) ++ ['\n', '\n']
    else t
  else t

/-- Model of `Regex::new(r"(\r?\n\s*){2,}").replace_all(s, "\n\n")`: every
maximal whitespace run is rewritten by `trWtoken`, all other characters are
kept. -/
def mergeNL (l : List Char) : List Char := ((wsTokens l).map trWtoken).flatten

/-- Model of `Regex::new(r"\t").replace_all(s, " ")`. -/
def tabFix (l : List Char) : List Char :=
  l.map (fun c => if c = '\t' then ' ' else c)

/-- Model of `Regex::new(r" {2,}").replace_all(s, "  ")`: every maximal run
of two or more spaces collapses to exactly two spaces.  The right-fold keeps
the first two spaces of a run and drops the rest. -/
def mergeSp : List Char → List Char
  | [] => []
  | c :: rest =>
    let r := mergeSp rest
    if c = ' ' ∧ r.take 2 = [' ', ' '] then r else c :: r

/-- Model of `Regex::new(r"(\t|&nbsp;)").replace_all(s, " ")`: each tab
character and each literal `&nbsp;` substring becomes a single space. -/
def nbspTabFix : List Char → List Char
  | '&' :: 'n' :: 'b' :: 's' :: 'p' :: ';' :: rest => ' ' :: nbspTabFix rest
  | '\t' :: rest => ' ' :: nbspTabFix rest
  | c :: rest => c :: nbspTabFix rest
  | [] => []

/-- Tag removal on simple well-formed HTML: every tag (from `<` to the
matching `>`) is removed and the text content is kept, with nothing
inserted in a tag's place.  This is the tag-dropping aspect of
`ammonia::Builder::new().tags(HashSet::default()).clean(html)`; the full
ammonia model is `ammoniaClean` below.  The boolean argument is true while
scanning inside a tag. -/
def stripTagsGo : Bool → List Char → List Char
  | _, [] => []
  | false, '<' :: rest => stripTagsGo true rest
  | false, c :: rest => c :: stripTagsGo false rest
  | true, '>' :: rest => stripTagsGo false rest
  | true, _ :: rest => stripTagsGo true rest

def stripTags (l : List Char) : List Char := stripTagsGo false l

/-- HTML character-reference decoding, restricted to the named entities
exercised in this development (`&amp;` `&lt;` `&gt;` `&quot;` `&nbsp;`
`&Tab;`); every other character, including a `&` that does not open one of
these entities, is kept verbatim, and decoding does not rescan its own
output.  The same function models both the parse-time decoding html5ever
performs inside `ammonia::clean` and the final
`html_escape::decode_html_entities` pass of line 123 of the source (both
are single-pass decoders). -/
def decodeEntities : List Char → List Char
  | '&' :: 'a' :: 'm' :: 'p' :: ';' :: rest => '&' :: decodeEntities rest
  | '&' :: 'l' :: 't' :: ';' :: rest => '<' :: decodeEntities rest
  | '&' :: 'g' :: 't' :: ';' :: rest => '>' :: decodeEntities rest
  | '&' :: 'q' :: 'u' :: 'o' :: 't' :: ';' :: rest => '"' :: decodeEntities rest
  | '&' :: 'n' :: 'b' :: 's' :: 'p' :: ';' :: rest => '\xa0' :: decodeEntities rest
  | '&' :: 'T' :: 'a' :: 'b' :: ';' :: rest => '\t' :: decodeEntities rest
  | c :: rest => c :: decodeEntities rest
  | [] => []

/-- The carriage-return normalization of the HTML input stream
preprocessor (html5ever follows the HTML standard): every `\r\n` pair and
every lone `\r` becomes `\n` before tokenization. -/
def crNorm : List Char → List Char
  | '\r' :: '\n' :: rest => '\n' :: crNorm rest
  | '\r' :: rest => '\n' :: crNorm rest
  | c :: rest => c :: crNorm rest
  | [] => []

/-- The escaping ammonia applies when serializing cleaned text back to a
string: `&`, `<` and `>` become `&amp;`, `&lt;` and `&gt;`, and the
no-break space U+00A0 becomes the literal `&nbsp;`; every other character
is written verbatim. -/
def ammoniaEscape : List Char → List Char
  | '&' :: rest => '&' :: 'a' :: 'm' :: 'p' :: ';' :: ammoniaEscape rest
  | '<' :: rest => '&' :: 'l' :: 't' :: ';' :: ammoniaEscape rest
  | '>' :: rest => '&' :: 'g' :: 't' :: ';' :: ammoniaEscape rest
  | '\xa0' :: rest => '&' :: 'n' :: 'b' :: 's' :: 'p' :: ';' :: ammoniaEscape rest
  | c :: rest => c :: ammoniaEscape rest
  | [] => []

/-- Model of `ammonia::Builder::new().tags(HashSet::default()).clean(html)`
on simple well-formed HTML: the parser normalizes carriage returns and
decodes character references while tokenizing, every tag is removed with
its text content kept, and serialization re-escapes `&`, `<`, `>` and the
no-break space.  (Character references inside a removed tag disappear with
the tag, so decoding the stripped text agrees with decoding during
tokenization on the inputs considered here.) -/
def ammoniaClean (l : List Char) : List Char :=
  ammoniaEscape (decodeEntities (stripTags (crNorm l)))

/-- Sanitization pipeline of the plain-text branch of
`Msg::fold_text_plain_parts` (lines 128-144 of the source): merge newline
blocks, replace tabs by spaces, merge space runs. -/
def sanitizePlainChars (l : List Char) : List Char := mergeSp (tabFix (mergeNL l))

/-- Sanitization pipeline of the HTML fallback branch of
`Msg::fold_text_plain_parts` (lines 102-126): clean the markup with
ammonia first, then on the serialized (entity-escaped) text merge newline
blocks, replace tabs and literal `&nbsp;` substrings by spaces and merge
space runs, and finally decode the remaining (ammonia-escaped) character
references with `html_escape::decode_html_entities`. -/
def sanitizeHtmlChars (l : List Char) : List Char :=
  decodeEntities (mergeSp (nbspTabFix (mergeNL (ammoniaClean l))))

def sanitizePlain (s : String) : String := String.mk (sanitizePlainChars s.data)

def sanitizeHtml (s : String) : String := String.mk (sanitizeHtmlChars s.data)

/-! ## Data model -/

/-- Mirror of `TextPlainPart` (declared in `msg/parts.rs`, used by the
source file). -/
structure TextPlainPart where
  content : String
deriving DecidableEq

structure TextHtmlPart where
  content : String
deriving DecidableEq

/-- Mirror of `BinaryPart`: an attachment with file name, MIME type string
and raw bytes. -/
structure BinaryPart where
  filename : String
  mime : String
  content : List Nat
deriving DecidableEq

/-- Mirror of the `Part` enum. -/
inductive Part where
  | textPlain : TextPlainPart → Part
  | textHtml : TextHtmlPart → Part
  | binary : BinaryPart → Part
deriving DecidableEq

def Part.isTextPlain : Part → Bool
  | .textPlain _ => true
  | _ => false

def Part.isTextHtml : Part → Bool
  | .textHtml _ => true
  | _ => false

def Part.isBinary : Part → Bool
  | .binary _ => true
  | _ => false

def Part.new_text_plain (content : String) : Part := Part.textPlain ⟨content⟩

/-- Modelled from the spec: `Parts` (declared in `msg/parts.rs`, not under
`src/`) is an ordered part collection supporting append, filter-by-variant,
remove-all-of-variant and iteration; we represent it by a list. -/
abbrev Parts := List Part

/-- Mirror of the `Addr` type alias (`lettre::message::Mailbox`): an email
address with an optional display name. -/
structure Addr where
  name : Option String
  email : String
deriving DecidableEq

/-- Modelled from the spec: the account configuration (declared in
`config/`, not under `src/`) exposes the user address string and an optional
signature. -/
structure Account where
  address : String
  sig : Option String
deriving DecidableEq

/-- Modelled from the spec: the signature-delimiter token the reply body
quoting stops at. -/
def DEFAULT_SIG_DELIM : String := "-- "

/-- Modelled from the spec: `TplOverride` (declared in `msg/tpl.rs`, not
under `src/`) holds one optional override per template ingredient; its
`Default` has every field absent. -/
structure TplOverride where
  subject : Option String
  «from» : Option (List String)
  «to» : Option (List String)
  cc : Option (List String)
  bcc : Option (List String)
  body : Option String
  sig : Option String

def TplOverride.default : TplOverride := ⟨none, none, none, none, none, none, none⟩

/-- Mirror of the `Msg` struct.  `flags` is an opaque set (list of strings),
`date` models `Option<DateTime<FixedOffset>>` by the `%d %b %Y, at %H:%M`
rendering used in the reply header, which is the only use the embedded
operations make of it. -/
structure Msg where
  id : Nat
  flags : List String
  subject : String
  «from» : Option (List Addr)
  reply_to : Option (List Addr)
  «to» : Option (List Addr)
  cc : Option (List Addr)
  bcc : Option (List Addr)
  in_reply_to : Option String
  message_id : Option String
  date : Option String
  parts : List Part
  encrypt : Bool
deriving DecidableEq

/-- Mirror of `Msg::default()` (`#[derive(Default)]`). -/
def Msg.default : Msg :=
  { id := 0, flags := [], subject := "", «from» := none, reply_to := none,
    «to» := none, cc := none, bcc := none, in_reply_to := none,
    message_id := none, date := none, parts := [], encrypt := false }

/-! ## Folding (lines 82-146) -/

/-- The fold of lines 83-101: concatenate plain-text part contents and HTML
part contents separately, gluing with a blank line. -/
def foldPartsAccum (parts : List Part) : String × String :=
  parts.foldl
    (fun acc part =>
      match part with
      | Part.textPlain p =>
        (acc.1 ++ (if acc.1 = "" then "" else "\n\n") ++ p.content, acc.2)
      | Part.textHtml p =>
        (acc.1, acc.2 ++ (if acc.2 = "" then "" else "\n\n") ++ p.content)
      | _ => acc)
    ("", "")

/-- Mirror of `Msg::fold_text_plain_parts`. -/
def Msg.fold_text_plain_parts (self : Msg) : String :=
  let acc := foldPartsAccum self.parts
  if acc.1 = "" then sanitizeHtml acc.2 else sanitizePlain acc.1

/-! ## Merge (lines 443-477) -/

/-- The part loop of `Msg::merge_with` (lines 464-476): binary overlay parts
are appended, a plain-text (resp. HTML) overlay part first removes every
plain-text (resp. HTML) part and is then appended. -/
def mergeParts (self other : List Part) : List Part :=
  other.foldl
    (fun acc part =>
      match part with
      | Part.binary _ => acc ++ [part]
      | Part.textPlain _ => (acc.filter (fun p => !p.isTextPlain)) ++ [part]
      | Part.textHtml _ => (acc.filter (fun p => !p.isTextHtml)) ++ [part])
    self

/-- Mirror of `Msg::merge_with`. -/
def Msg.merge_with (self : Msg) (msg : Msg) : Msg :=
  let self := if msg.«from».isSome then { self with «from» := msg.«from» } else self
  let self := if msg.«to».isSome then { self with «to» := msg.«to» } else self
  let self := if msg.cc.isSome then { self with cc := msg.cc } else self
  let self := if msg.bcc.isSome then { self with bcc := msg.bcc } else self
  let self := if msg.subject = "" then self else { self with subject := msg.subject }
  { self with parts := mergeParts self.parts msg.parts }

/-! ## Address grammar (model of the `lettre` mailbox parser and printer) -/

/-- Model of Rust `str::trim` (Unicode whitespace stripped at both ends). -/
def trimL (l : List Char) : List Char :=
  ((l.dropWhile isWS).reverse.dropWhile isWS).reverse

def trimStr (s : String) : String := String.mk (trimL s.data)

def isUserChar (c : Char) : Bool :=
  let n := c.toNat
  (decide (48 ≤ n) && decide (n ≤ 57)) || (decide (65 ≤ n) && decide (n ≤ 90)) ||
  (decide (97 ≤ n) && decide (n ≤ 122)) ||
  c = '.' || c = '_' || c = '%' || c = '+' || c = '-'

def isDomainChar (c : Char) : Bool :=
  let n := c.toNat
  (decide (48 ≤ n) && decide (n ≤ 57)) || (decide (65 ≤ n) && decide (n ≤ 90)) ||
  (decide (97 ≤ n) && decide (n ≤ 122)) ||
  c = '.' || c = '-'

/-- Model of `lettre::Address` validity (`user@domain`), conservative: it
accepts the alphanumeric/dot/underscore/percent/plus/dash shapes used in
this development and nothing with spaces, commas, angle brackets or line
breaks. -/
def wfEmailChars (l : List Char) : Bool :=
  let user := l.takeWhile (fun c => c ≠ '@')
  match l.dropWhile (fun c => c ≠ '@') with
  | '@' :: domain =>
    !user.isEmpty && !domain.isEmpty && user.all isUserChar && domain.all isDomainChar
  | _ => false

/-- Model of the `FromStr` of `lettre::message::Mailbox` on unquoted input:
either `name <user@domain>` or a bare `user@domain`. -/
def parseMailbox (s : String) : Option Addr :=
  let l := s.data
  if l.any (fun c => c = '<') then
    let namePart := l.takeWhile (fun c => c ≠ '<')
    let rest := (l.dropWhile (fun c => c ≠ '<')).tail
    let emailPart := rest.takeWhile (fun c => c ≠ '>')
    let after := rest.dropWhile (fun c => c ≠ '>')
    if (after == ['>']) && wfEmailChars emailPart then
      let nm := trimL namePart
      some ⟨if nm.isEmpty then none else some (String.mk nm), String.mk emailPart⟩
    else none
  else if wfEmailChars l then some ⟨none, s⟩ else none

/-- Model of the `Display` of `lettre::message::Mailbox` on display names
that need no quoting: `name <email>` when a name is present, the bare email
otherwise. -/
def Addr.toStr (a : Addr) : String :=
  match a.name with
  | some n => n ++ " <" ++ a.email ++ ">"
  | none => a.email

/-- Mirror of `parse_addr` (line 834): trim the raw string, then parse it
with the external address grammar. -/
def parse_addr (raw_addr : String) : Except String Addr :=
  match parseMailbox (trimStr raw_addr) with
  | some a => Except.ok a
  | none => Except.error "cannot parse address"

/-- Model of Rust `str::split(',')`: always returns at least one (possibly
empty) segment. -/
def splitComma : List Char → List (List Char)
  | [] => [[]]
  | ',' :: rest => [] :: splitComma rest
  | c :: rest =>
    match splitComma rest with
    | s :: ss => (c :: s) :: ss
    | [] => [[c]]

/-- The `for` loop of `parse_addrs`: parse each comma segment in order,
aborting at the first failure. -/
def parseAddrsLoop : List (List Char) → Except String (List Addr)
  | [] => Except.ok []
  | seg :: rest =>
    match parse_addr (String.mk seg) with
    | Except.error e => Except.error e
    | Except.ok a =>
      match parseAddrsLoop rest with
      | Except.error e => Except.error e
      | Except.ok addrs => Except.ok (a :: addrs)

/-- Mirror of `parse_addrs` (line 842): split on commas, parse every
segment, return `none` when the collected list is empty. -/
def parse_addrs (raw_addrs : String) : Except String (Option (List Addr)) :=
  match parseAddrsLoop (splitComma raw_addrs.data) with
  | Except.error e => Except.error e
  | Except.ok addrs => Except.ok (if addrs.isEmpty then none else some addrs)

/-! ## Reply transformation (lines 176-256) -/

/-- Model of Rust `str::split('\n')` (keeps empty segments, at least one). -/
def splitNL : List Char → List (List Char)
  | [] => [[]]
  | '\n' :: rest => [] :: splitNL rest
  | c :: rest =>
    match splitNL rest with
    | s :: ss => (c :: s) :: ss
    | [] => [[c]]

def stripCR (l : List Char) : List Char :=
  if l.getLast? = some '\r' then l.dropLast else l

/-- Model of Rust `str::starts_with` (list-based, so that the kernel can
evaluate it). -/
def strStartsWith (s p : String) : Bool := s.data.take p.data.length == p.data

/-- Model of Rust `str::lines`: split at each newline, drop one trailing
carriage return per line, and produce no empty final line for a trailing
newline. -/
def linesOf (l : List Char) : List (List Char) :=
  let segs := splitNL l
  (if segs.getLast? = some [] then segs.dropLast else segs).map stripCR

/-- The quoting loop of `into_reply` (lines 238-248): prefix each line with
`"> "` (or just `">"` when the line already starts with one), joining with
newlines, stopping at the first line equal to the signature delimiter. -/
def quoteLines (glue : String) : List (List Char) → String
  | [] => ""
  | line :: rest =>
    if String.mk line = DEFAULT_SIG_DELIM then ""
    else
      glue ++ ">" ++ (if strStartsWith (String.mk line) ">" then "" else " ") ++
        String.mk line ++ quoteLines "\n" rest

/-- Mirror of `Msg::into_reply`.  The source clears `message_id` before
capturing it into `in_reply_to`, and overwrites `from` with the account
address before computing the recipient list; both orderings are kept here.
The body uses `fold_text_parts("plain")`, which dispatches to
`fold_text_plain_parts` (lines 168-174). -/
def Msg.into_reply (self : Msg) (all : Bool) (account : Account) : Except String Msg :=
  match parseMailbox account.address with
  | none => Except.error "cannot parse account address"
  | some account_addr =>
    let m := { self with message_id := none }
    let m := { m with in_reply_to := m.message_id }
    let m := { m with «from» := some [account_addr] }
    let addrs : Option (List Addr) :=
      ((match m.reply_to with
        | some a => some a
        | none => m.«from») : Option (List Addr)).map
        (fun addrs : List Addr => addrs.filter (fun addr => addr ≠ account_addr))
    let m :=
      if all then { m with «to» := addrs }
      else { m with «to» := (addrs.bind (fun a => a.head?)).map (fun addr => [addr]) }
    let m := if all then m else { m with cc := none, bcc := none }
    let m :=
      if strStartsWith m.subject "Re:" then m
      else { m with subject := "Re: " ++ m.subject }
    let plain_content :=
      let date := m.date.getD "unknown date"
      let sender :=
        ((((match m.reply_to with
            | some a => some a
            | none => m.«from») : Option (List Addr)).bind (fun a => a.head?)).map
          (fun addr : Addr => addr.name.getD addr.email)).getD "unknown sender"
      ("\n\nOn " ++ date ++ ", " ++ sender ++ " wrote:\n") ++
        quoteLines "" (linesOf (trimStr m.fold_text_plain_parts).data)
    Except.ok { m with parts := [Part.new_text_plain plain_content] }

/-! ## Template parsing (lines 566-626) -/

/-- Model of Rust `str::to_lowercase` on the ASCII header keys used here. -/
def lowerStr (s : String) : String := String.mk (s.data.map Char.toLower)

/-- Splitting of one header line at its first colon (the header grammar of
the external `mailparse` parser). -/
def splitColon (line : List Char) : Option (List Char × List Char) :=
  if line.any (fun c => c = ':') then
    some (line.takeWhile (fun c => c ≠ ':'), (line.dropWhile (fun c => c ≠ ':')).tail)
  else none

/-- Model of `mailparse::parse_mail` on LF-separated input without folded
(continuation) headers and without a transfer encoding: `key: value` lines
are read until the first empty line and the remainder is the raw body
(which is what `get_body_raw` returns for these inputs); a header line
without a colon is a failure.  `cur` holds the current line so far
(reversed), `hs` the headers so far (reversed). -/
def parseMailAux : List Char → List (List Char × List Char) → List Char →
    Option (List (List Char × List Char) × List Char)
  | cur, hs, [] =>
    if cur.isEmpty then some (hs.reverse, [])
    else
      match splitColon cur.reverse with
      | some kv => some ((kv :: hs).reverse, [])
      | none => none
  | cur, hs, c :: rest =>
    if c = '\n' then
      if cur.isEmpty then some (hs.reverse, rest)
      else
        match splitColon cur.reverse with
        | some kv => parseMailAux [] (kv :: hs) rest
        | none => none
    else parseMailAux (c :: cur) hs rest

def parseMail (l : List Char) : Option (List (List Char × List Char) × List Char) :=
  parseMailAux [] [] l

/-- One iteration of the header loop of `Msg::from_tpl` (lines 574-611):
lowercase the key, trim the decoded value, store it in the matching field
(address headers go through `parse_addrs`, whose failure aborts the loop);
unrecognised keys are ignored.  The `String::from_utf8` decode of the raw
value cannot fail in this model, where strings are already valid text. -/
def processHeader (msg : Msg) (kv : List Char × List Char) : Except String Msg :=
  let key := lowerStr (String.mk kv.1)
  let val := trimStr (String.mk kv.2)
  if key = "message-id" then Except.ok { msg with message_id := some val }
  else if key = "in-reply-to" then Except.ok { msg with in_reply_to := some val }
  else if key = "subject" then Except.ok { msg with subject := val }
  else if key = "from" then (parse_addrs val).map (fun a => { msg with «from» := a })
  else if key = "to" then (parse_addrs val).map (fun a => { msg with «to» := a })
  else if key = "reply-to" then (parse_addrs val).map (fun a => { msg with reply_to := a })
  else if key = "cc" then (parse_addrs val).map (fun a => { msg with cc := a })
  else if key = "bcc" then (parse_addrs val).map (fun a => { msg with bcc := a })
  else Except.ok msg

/-- Mirror of `Msg::from_tpl`. -/
def Msg.from_tpl (tpl : String) : Except String Msg :=
  match parseMail tpl.data with
  | none => Except.error "cannot parse template"
  | some (headers, body) =>
    match headers.foldlM processHeader Msg.default with
    | Except.error e => Except.error e
    | Except.ok msg =>
      Except.ok { msg with parts := msg.parts ++ [Part.textPlain ⟨String.mk body⟩] }

/-- The five header keys of `from_tpl` whose values go through
`parse_addrs`. -/
def isAddrHeaderKey (k : List Char) : Bool :=
  lowerStr (String.mk k) == "from" || lowerStr (String.mk k) == "to" ||
  lowerStr (String.mk k) == "reply-to" || lowerStr (String.mk k) == "cc" ||
  lowerStr (String.mk k) == "bcc"

/-! ## Template rendering (lines 479-564) -/

/-- Rendering of one `push_str(&format!("{}: {}\n", ..))`-shaped header
line. -/
def headerLineStr (k v : String) : String := k ++ ": " ++ v ++ "\n"

/-- Model of `Vec<String>::join(", ")` and of the `join` applied to rendered
address lists. -/
def joinStrs (sep : String) : List String → String
  | [] => ""
  | [s] => s
  | s :: rest => s ++ sep ++ joinStrs sep rest

/-- Rendering of an entity address list:
`addrs.iter().map(to_string).collect().join(", ")`. -/
def joinAddrs (addrs : List Addr) : String := joinStrs ", " (addrs.map Addr.toStr)

/-- Value of the From header line of `to_tpl` (lines 489-494): the override
when supplied, otherwise the account address — the entity `from` field is
not consulted. -/
def fromVal (opts : TplOverride) (acct : Account) : String :=
  (opts.«from».map (joinStrs ", ")).getD acct.address

/-- Value of the To header line (lines 497-507): override, else the entity
list, else empty. -/
def toVal (m : Msg) (opts : TplOverride) : String :=
  (opts.«to».map (joinStrs ", ")).getD ((m.«to».map joinAddrs).getD "")

/-- Value of the optional Cc header line (lines 510-520). -/
def ccVal (m : Msg) (opts : TplOverride) : Option String :=
  match opts.cc with
  | some o => some (joinStrs ", " o)
  | none => m.cc.map joinAddrs

/-- Value of the optional Bcc header line (lines 523-533). -/
def bccVal (m : Msg) (opts : TplOverride) : Option String :=
  match opts.bcc with
  | some o => some (joinStrs ", " o)
  | none => m.bcc.map joinAddrs

/-- Value of the Subject header line (lines 536-539). -/
def subjVal (m : Msg) (opts : TplOverride) : String := opts.subject.getD m.subject

/-- The signature block appended after the body (lines 552-558). -/
def sigStr (opts : TplOverride) (acct : Account) : String :=
  match opts.sig with
  | some s => "\n\n" ++ s
  | none =>
    match acct.sig with
    | some s => "\n\n" ++ s
    | none => ""

/-- Mirror of `Msg::to_tpl`, with each `push_str(&format!(..))` rendered as
string concatenation. -/
def Msg.to_tpl (self : Msg) (opts : TplOverride) (account : Account) : String :=
  let tpl := "Content-Type: text/plain; charset=utf-8\n"
  let tpl := tpl ++ (match self.in_reply_to with
    | some in_reply_to => headerLineStr "In-Reply-To" in_reply_to
    | none => "")
  let tpl := tpl ++ headerLineStr "From" (fromVal opts account)
  let tpl := tpl ++ headerLineStr "To" (toVal self opts)
  let tpl := tpl ++ (match ccVal self opts with
    | some addrs => headerLineStr "Cc" addrs
    | none => "")
  let tpl := tpl ++ (match bccVal self opts with
    | some addrs => headerLineStr "Bcc" addrs
    | none => "")
  let tpl := tpl ++ headerLineStr "Subject" (subjVal self opts)
  let tpl := tpl ++ "\n"
  let tpl := tpl ++ (opts.body.getD self.fold_text_plain_parts)
  let tpl := tpl ++ sigStr opts account
  tpl ++ "\n"

/-- Characters contributed to the template by an optional header line. -/
def optHeaderChunk (key : String) (o : Option String) : List Char :=
  match o with
  | some s => (headerLineStr key s).data
  | none => []

/-- Parsed key/value pairs contributed by an optional header line. -/
def optHeaderKV (key : String) (o : Option String) : List (List Char × List Char) :=
  match o with
  | some s => [(key.data, ' ' :: s.data)]
  | none => []

/-- The header list recovered when a rendered template is parsed back (each
value carries the space following the colon; `from_tpl` trims it away). -/
def tplHeaders (m : Msg) (opts : TplOverride) (acct : Account) :
    List (List Char × List Char) :=
  [("Content-Type".data, " text/plain; charset=utf-8".data)] ++
  optHeaderKV "In-Reply-To" m.in_reply_to ++
  [("From".data, ' ' :: (fromVal opts acct).data),
   ("To".data, ' ' :: (toVal m opts).data)] ++
  optHeaderKV "Cc" (ccVal m opts) ++
  optHeaderKV "Bcc" (bccVal m opts) ++
  [("Subject".data, ' ' :: (subjVal m opts).data)]

/-- The raw body recovered when a rendered template is parsed back. -/
def tplBodyChars (m : Msg) (opts : TplOverride) (acct : Account) : List Char :=
  (opts.body.getD m.fold_text_plain_parts).data ++ (sigStr opts acct).data ++ ['\n']

/-- Absence of line breaks in a rendered header value (the condition under
which the flat template keeps its line structure). -/
def noNL (s : String) : Prop := ∀ c ∈ s.data, c ≠ '\n'

def noNLopt : Option String → Prop
  | some s => noNL s
  | none => True

/-- Well-formedness of the header values of a rendered template: no value
contains a line break. -/
def TplWF (m : Msg) (opts : TplOverride) (acct : Account) : Prop :=
  noNL (fromVal opts acct) ∧ noNL (toVal m opts) ∧ noNLopt (ccVal m opts) ∧
  noNLopt (bccVal m opts) ∧ noNLopt m.in_reply_to ∧ noNL (subjVal m opts)

instance (s : String) : Decidable (noNL s) :=
  inferInstanceAs (Decidable (∀ c ∈ s.data, c ≠ '\n'))

instance : (o : Option String) → Decidable (noNLopt o)
  | some s => inferInstanceAs (Decidable (noNL s))
  | none => Decidable.isTrue trivial

instance (m : Msg) (opts : TplOverride) (acct : Account) :
    Decidable (TplWF m opts acct) :=
  inferInstanceAs (Decidable (_ ∧ _ ∧ _ ∧ _ ∧ _ ∧ _))

/-- Well-formedness of a display name for the round-trip argument: no angle
brackets, commas or line breaks, and no whitespace at either end (so the
rendered `name <email>` form parses back to the same name). -/
def wfName (n : String) : Prop :=
  n.data ≠ [] ∧ (∀ c ∈ n.data, c ≠ '<' ∧ c ≠ '>' ∧ c ≠ ',' ∧ c ≠ '\n') ∧
  isWS (n.data.headD 'a') = false ∧ isWS (n.data.reverse.headD 'a') = false

/-- Well-formedness of an address for the round-trip argument: the email is
accepted by the conservative grammar model and the name, when present, is
well formed. -/
def wfAddr (a : Addr) : Prop :=
  wfEmailChars a.email.data = true ∧
  (match a.name with
   | some n => wfName n
   | none => True)

instance (n : String) : Decidable (wfName n) :=
  inferInstanceAs (Decidable (_ ∧ _ ∧ _ ∧ _))

instance : (a : Addr) → Decidable (wfAddr a)
  | ⟨some n, _e⟩ => inferInstanceAs (Decidable (_ ∧ wfName n))
  | ⟨none, _e⟩ => inferInstanceAs (Decidable (_ ∧ True))

/-! ## Whitespace-run tokenization invariants (for the idempotence study) -/

/-- Class of a token: whether its characters are whitespace. -/
def tokClass (t : List Char) : Bool := isWS (t.headD 'a')

/-- A token is homogeneous when all its characters share the head's
whitespace class. -/
def homogTok (t : List Char) : Prop := ∀ c ∈ t, isWS c = tokClass t

/-- A list of tokens is a valid alternating run decomposition: every token
is non-empty and homogeneous, and adjacent tokens have different classes.
`wsTokens` produces exactly such decompositions, and flattening such a
decomposition tokenizes back to it. -/
inductive AltTok : List (List Char) → Prop
  | nil : AltTok []
  | single (t : List Char) (h1 : t ≠ []) (h2 : homogTok t) : AltTok [t]
  | cons (t u : List Char) (ts : List (List Char)) (h1 : t ≠ [])
      (h2 : homogTok t) (h3 : tokClass t ≠ tokClass u)
      (h : AltTok (u :: ts)) : AltTok (t :: u :: ts)

/-! ## Sendable message (lines 628-708) -/

/-- Mirror of `Msg::attachments` (lines 69-77): the binary parts, in
order. -/
def Msg.attachments (self : Msg) : List BinaryPart :=
  self.parts.filterMap (fun p =>
    match p with
    | Part.binary b => some b
    | _ => none)

/-- Model of `"...".parse::<ContentType>()` (the `mime` crate via lettre),
restricted to the simple `type/subtype` shape: the parse succeeds exactly
when the string splits as two non-empty slash-separated runs of ASCII
letters, digits, dots or dashes.  The empty string in particular fails, as
it does in the real parser. -/
def mimeTokenChar (c : Char) : Bool :=
  (decide (97 ≤ c.toNat) && decide (c.toNat ≤ 122)) ||
  (decide (65 ≤ c.toNat) && decide (c.toNat ≤ 90)) ||
  (decide (48 ≤ c.toNat) && decide (c.toNat ≤ 57)) ||
  c = '-' || c = '.'

def contentTypeParse (s : String) : Option String :=
  let t := s.data.takeWhile (fun c => c ≠ '/')
  match s.data.dropWhile (fun c => c ≠ '/') with
  | '/' :: sub =>
    if t ≠ [] ∧ sub ≠ [] ∧ (∀ c ∈ t, mimeTokenChar c = true) ∧
        (∀ c ∈ sub, mimeTokenChar c = true) then some s else none
  | _ => none

/-- The attachment loop of lines 670-677: each attachment's declared mime
type must parse, and the first failure aborts `into_sendable_msg` with the
`cannot parse content type of attachment {filename}` error (the `?`
operator). -/
def attachMimeCheck : List BinaryPart → Except String Unit
  | [] => Except.ok ()
  | b :: rest =>
    match contentTypeParse b.mime with
    | none => Except.error ("cannot parse content type of attachment "
        ++ b.filename)
    | some _ => attachMimeCheck rest

/-- The body of the built message: either the mixed multipart of lines
667-680 (folded plain text plus attachments) or the encrypted multipart of
lines 693-704 (a `Version: 1` control part plus the encrypted payload,
which we carry as the payload string). -/
inductive Multipart where
  | mixed : String → List BinaryPart → Multipart
  | encrypted : String → Multipart
deriving DecidableEq

/-- Model of the built `lettre::Message`: the headers transferred by the
builder calls of lines 629-665 plus the multipart body.  Failures of
lettre's own `build` step (line 705-707) are not modelled; the
`.context("cannot build sendable message")` path is outside every claim. -/
structure SendableMsg where
  message_id : Option String
  subject : String
  in_reply_to : Option String
  «from» : List Addr
  «to» : List Addr
  reply_to : List Addr
  cc : List Addr
  bcc : List Addr
  multipart : Multipart
deriving DecidableEq

/-- Outcome of `into_sendable_msg`: Rust distinguishes returning an `Err`
value (recoverable, the `?` paths) from panicking (`unwrap` on `None`),
so the embedding separates the two. -/
inductive SendOutcome where
  | panic : String → SendOutcome
  | err : String → SendOutcome
  | ok : SendableMsg → SendOutcome
deriving DecidableEq

/-- Mirror of `Msg::into_sendable_msg` (lines 628-708).  The `pgp`
parameter abstracts `account.pgp_encrypt_file(email, path)` (an external
command configured on the account, returning `Result<Option<String>>`); the
temporary-file write of line 684 is assumed to succeed, and the encrypted
payload depends on the recipient email through `pgp`.  The source builds
the mixed multipart — parsing every attachment content type with `?` —
BEFORE the `if self.encrypt` block, and inside that block dereferences
`self.to.as_ref().unwrap().first().unwrap()`. -/
def buildSendable (self : Msg) (mp : Multipart) : SendableMsg :=
  { message_id := self.message_id, subject := self.subject,
    in_reply_to := self.in_reply_to,
    «from» := self.«from».getD [], «to» := (self.«to»).getD [],
    reply_to := self.reply_to.getD [], cc := self.cc.getD [],
    bcc := self.bcc.getD [],
    multipart := mp }

def Msg.into_sendable_msg (self : Msg)
    (pgp : String → Except String (Option String)) : SendOutcome :=
  match attachMimeCheck self.attachments with
  | Except.error e => SendOutcome.err e
  | Except.ok _ =>
    if self.encrypt then
      match self.«to» with
      | none => SendOutcome.panic "called Option::unwrap() on a None value"
      | some [] => SendOutcome.panic "called Option::unwrap() on a None value"
      | some (a :: _) =>
        match pgp a.email with
        | Except.error e => SendOutcome.err e
        | Except.ok none =>
          SendOutcome.err "cannot find pgp encrypt command in config"
        | Except.ok (some enc) =>
          SendOutcome.ok (buildSendable self (Multipart.encrypted enc))
    else
      SendOutcome.ok (buildSendable self
        (Multipart.mixed self.fold_text_plain_parts self.attachments))

end Himalaya

namespace Himalaya

/-! ## Theorems for C5, C7, C8 -/

/-- C5 counterexample: on the HTML-only entity with content
`"<p>Hi</p><p>There</p>"`, `fold_text_plain_parts` does not return
`"Hi\n\nThere"` — tag stripping inserts no whitespace, so no blank line can
appear between the two paragraphs. -/
theorem c5_counterexample :
    Msg.fold_text_plain_parts
        { Msg.default with parts := [Part.textHtml ⟨"<p>Hi</p><p>There</p>"⟩] }
      ≠ "Hi\n\nThere" := by decide

/-- C5 (amended): on the HTML-only entity with content
`"<p>Hi</p><p>There</p>"`, `fold_text_plain_parts` returns exactly
`"HiThere"`: the markup tags are stripped and no whitespace is inserted in
their place. -/
theorem c5_fold_html_only :
    Msg.fold_text_plain_parts
        { Msg.default with parts := [Part.textHtml ⟨"<p>Hi</p><p>There</p>"⟩] }
      = "HiThere" := by decide

/-- C7: `merge_with` replaces `from`, `to`, `cc`, `bcc` exactly when the
overlay field is `some` (even `some []`), keeps them otherwise, and replaces
`subject` exactly when the overlay subject is non-empty; in particular
`to = some [x]` merged with an absent overlay `to` stays `some [x]`, and an
overlay `to = some []` yields `some []`. -/
theorem c7_merge_with_fields :
    (∀ a b : Msg,
      (a.merge_with b).«from» = (if b.«from».isSome then b.«from» else a.«from») ∧
      (a.merge_with b).«to» = (if b.«to».isSome then b.«to» else a.«to») ∧
      (a.merge_with b).cc = (if b.cc.isSome then b.cc else a.cc) ∧
      (a.merge_with b).bcc = (if b.bcc.isSome then b.bcc else a.bcc) ∧
      (a.merge_with b).subject = (if b.subject = "" then a.subject else b.subject)) ∧
    (∀ x : Addr,
      (Msg.merge_with { Msg.default with «to» := some [x] } Msg.default).«to» = some [x] ∧
      (Msg.merge_with { Msg.default with «to» := some [x] }
          { Msg.default with «to» := some [] }).«to» = some ([] : List Addr)) := by
  constructor
  · intro a b
    unfold Msg.merge_with
    rcases hf : b.«from» with _ | f <;> rcases ht : b.«to» with _ | t <;>
      rcases hc : b.cc with _ | c <;> rcases hb : b.bcc with _ | bc <;>
      by_cases hs : b.subject = "" <;>
      simp [hf, ht, hc, hb, hs]
  · intro x
    constructor <;> rfl

theorem mergeParts_cons (s : List Part) (p : Part) (o : List Part) :
    mergeParts s (p :: o) =
      mergeParts
        (match p with
         | Part.binary _ => s ++ [p]
         | Part.textPlain _ => (s.filter (fun q => !q.isTextPlain)) ++ [p]
         | Part.textHtml _ => (s.filter (fun q => !q.isTextHtml)) ++ [p]) o := by
  cases p <;> rfl

@[simp] theorem Part.isTextPlain_mk (t : TextPlainPart) :
    (Part.textPlain t).isTextPlain = true := rfl

@[simp] theorem Part.isTextPlain_html (t : TextHtmlPart) :
    (Part.textHtml t).isTextPlain = false := rfl

@[simp] theorem Part.isTextPlain_bin (t : BinaryPart) :
    (Part.binary t).isTextPlain = false := rfl

@[simp] theorem Part.isTextHtml_mk (t : TextHtmlPart) :
    (Part.textHtml t).isTextHtml = true := rfl

@[simp] theorem Part.isTextHtml_plain (t : TextPlainPart) :
    (Part.textPlain t).isTextHtml = false := rfl

@[simp] theorem Part.isTextHtml_bin (t : BinaryPart) :
    (Part.binary t).isTextHtml = false := rfl

@[simp] theorem Part.isBinary_mk (t : BinaryPart) :
    (Part.binary t).isBinary = true := rfl

@[simp] theorem Part.isBinary_plain (t : TextPlainPart) :
    (Part.textPlain t).isBinary = false := rfl

@[simp] theorem Part.isBinary_html (t : TextHtmlPart) :
    (Part.textHtml t).isBinary = false := rfl

theorem filter_binary_of_filter_not_plain (s : List Part) :
    (s.filter (fun a => Part.isBinary a && !Part.isTextPlain a)) = s.filter Part.isBinary := by
  induction s with
  | nil => rfl
  | cons p rest ih => cases p <;> simp [List.filter_cons, ih]

theorem filter_binary_of_filter_not_html (s : List Part) :
    (s.filter (fun a => Part.isBinary a && !Part.isTextHtml a)) = s.filter Part.isBinary := by
  induction s with
  | nil => rfl
  | cons p rest ih => cases p <;> simp [List.filter_cons, ih]

theorem filter_plain_of_filter_not_plain (s : List Part) :
    (s.filter (fun a => Part.isTextPlain a && !Part.isTextPlain a)) = [] := by
  induction s with
  | nil => rfl
  | cons p rest ih => cases p <;> simp [List.filter_cons, ih]

theorem filter_plain_of_filter_not_html (s : List Part) :
    (s.filter (fun a => Part.isTextPlain a && !Part.isTextHtml a))
      = s.filter Part.isTextPlain := by
  induction s with
  | nil => rfl
  | cons p rest ih => cases p <;> simp [List.filter_cons, ih]

theorem filter_html_of_filter_not_html (s : List Part) :
    (s.filter (fun a => Part.isTextHtml a && !Part.isTextHtml a)) = [] := by
  induction s with
  | nil => rfl
  | cons p rest ih => cases p <;> simp [List.filter_cons, ih]

theorem filter_html_of_filter_not_plain (s : List Part) :
    (s.filter (fun a => Part.isTextHtml a && !Part.isTextPlain a))
      = s.filter Part.isTextHtml := by
  induction s with
  | nil => rfl
  | cons p rest ih => cases p <;> simp [List.filter_cons, ih]

theorem mergeParts_filter_binary (o s : List Part) :
    (mergeParts s o).filter Part.isBinary
      = s.filter Part.isBinary ++ o.filter Part.isBinary := by
  induction o generalizing s with
  | nil => simp [mergeParts]
  | cons p rest ih =>
    rw [mergeParts_cons]
    cases p with
    | binary b =>
      rw [ih]
      simp [List.filter_append, List.filter_cons]
    | textPlain t =>
      rw [ih]
      simp [List.filter_append, List.filter_cons, filter_binary_of_filter_not_plain]
    | textHtml t =>
      rw [ih]
      simp [List.filter_append, List.filter_cons, filter_binary_of_filter_not_html]

theorem mergeParts_filter_plain (o s : List Part) :
    (mergeParts s o).filter Part.isTextPlain
      = (match (o.filter Part.isTextPlain).getLast? with
         | some p => [p]
         | none => s.filter Part.isTextPlain) := by
  induction o generalizing s with
  | nil => simp [mergeParts]
  | cons p rest ih =>
    rw [mergeParts_cons]
    cases p with
    | binary b =>
      rw [ih]
      rcases h : (rest.filter Part.isTextPlain).getLast? with _ | q <;>
        simp [h, List.filter_append, List.filter_cons]
    | textHtml t =>
      rw [ih]
      rcases h : (rest.filter Part.isTextPlain).getLast? with _ | q <;>
        simp [h, List.filter_append, List.filter_cons, filter_plain_of_filter_not_html]
    | textPlain t =>
      rw [ih]
      rcases h : (rest.filter Part.isTextPlain).getLast? with _ | q
      · simp [h, List.filter_append, List.filter_cons, filter_plain_of_filter_not_plain,
          List.getLast?_eq_none_iff.mp h]
      · simp [h, List.filter_append, List.filter_cons, filter_plain_of_filter_not_plain,
          List.getLast?_cons]

theorem mergeParts_filter_html (o s : List Part) :
    (mergeParts s o).filter Part.isTextHtml
      = (match (o.filter Part.isTextHtml).getLast? with
         | some p => [p]
         | none => s.filter Part.isTextHtml) := by
  induction o generalizing s with
  | nil => simp [mergeParts]
  | cons p rest ih =>
    rw [mergeParts_cons]
    cases p with
    | binary b =>
      rw [ih]
      rcases h : (rest.filter Part.isTextHtml).getLast? with _ | q <;>
        simp [h, List.filter_append, List.filter_cons]
    | textPlain t =>
      rw [ih]
      rcases h : (rest.filter Part.isTextHtml).getLast? with _ | q <;>
        simp [h, List.filter_append, List.filter_cons, filter_html_of_filter_not_plain]
    | textHtml t =>
      rw [ih]
      rcases h : (rest.filter Part.isTextHtml).getLast? with _ | q
      · simp [h, List.filter_append, List.filter_cons, filter_html_of_filter_not_html,
          List.getLast?_eq_none_iff.mp h]
      · simp [h, List.filter_append, List.filter_cons, filter_html_of_filter_not_html,
          List.getLast?_cons]

/-- C8: in `merge_with`, binary overlay parts are appended (the binary parts
of the result are exactly those of self followed by those of the overlay, so
the count is the sum), while the plain-text parts of the result are the last
plain-text overlay part alone when the overlay has one, the plain-text parts
of self otherwise — and independently the same for HTML parts; in
particular, self `[PlainText "old"]` merged with overlay `[PlainText "new"]`
gives exactly `[PlainText "new"]`. -/
theorem c8_merge_parts_rules :
    (∀ s o : List Part, (mergeParts s o).filter Part.isBinary
        = s.filter Part.isBinary ++ o.filter Part.isBinary) ∧
    (∀ s o : List Part, ((mergeParts s o).filter Part.isBinary).length
        = (s.filter Part.isBinary).length + (o.filter Part.isBinary).length) ∧
    (∀ s o : List Part, (mergeParts s o).filter Part.isTextPlain
        = (match (o.filter Part.isTextPlain).getLast? with
           | some p => [p]
           | none => s.filter Part.isTextPlain)) ∧
    (∀ s o : List Part, (mergeParts s o).filter Part.isTextHtml
        = (match (o.filter Part.isTextHtml).getLast? with
           | some p => [p]
           | none => s.filter Part.isTextHtml)) ∧
    mergeParts [Part.textPlain ⟨"old"⟩] [Part.textPlain ⟨"new"⟩]
      = [Part.textPlain ⟨"new"⟩] := by
  refine ⟨fun s o => mergeParts_filter_binary o s, fun s o => ?_,
    fun s o => mergeParts_filter_plain o s, fun s o => mergeParts_filter_html o s, rfl⟩
  rw [mergeParts_filter_binary o s, List.length_append]

/-! ## Theorems for C1 and C2 -/

/-- C1 evaluation at the spec scenario: for the entity with subject
`"Meeting"`, `from = [alice]`, body `"Hi"` and no `reply_to`,
`into_reply(false, bob_account)` yields `to = none` — not `to = [alice]` as
the claim states — because the source overwrites `from` with the account
address before the `reply_to`-else-`from` recipient selection runs, so the
fallback list is `[bob]` and the account-address filter empties it.
Subject and `from` behave as claimed. -/
theorem c1_reply_recipients_eval :
    (Msg.into_reply
        { Msg.default with
            subject := "Meeting",
            «from» := some [⟨none, "alice@x.com"⟩],
            parts := [Part.textPlain ⟨"Hi"⟩] }
        false ⟨"bob@x.com", none⟩).map
        (fun m => (m.«to», m.subject, m.«from»))
      = Except.ok (none, "Re: Meeting", some [⟨none, "bob@x.com"⟩]) := by rfl

/-- C2 evaluation: for an entity whose `message_id` is
`some "<orig@id>"`, `into_reply` returns `in_reply_to = none` (and
`message_id = none`): the source clears `message_id` and only then copies
it into `in_reply_to`, so the original identifier is lost, contradicting
the claim that `in_reply_to` receives the pre-call `message_id`. -/
theorem c2_reply_threading_eval :
    (Msg.into_reply
        { Msg.default with
            message_id := some "<orig@id>",
            «from» := some [⟨none, "alice@x.com"⟩] }
        false ⟨"bob@x.com", none⟩).map
        (fun m => (m.in_reply_to, m.message_id))
      = Except.ok (none, none) := by rfl

/-! ## Theorems for C10 -/

theorem splitComma_ne_nil (l : List Char) : splitComma l ≠ [] := by
  induction l with
  | nil => simp [splitComma]
  | cons c rest ih =>
    by_cases h : c = ','
    · subst h; simp [splitComma]
    · cases hs : splitComma rest with
      | nil => exact absurd hs ih
      | cons s ss => simp [splitComma, h, hs]

theorem parseAddrsLoop_ok_length (l : List (List Char)) (res : List Addr)
    (h : parseAddrsLoop l = Except.ok res) : res.length = l.length := by
  induction l generalizing res with
  | nil =>
    simp [parseAddrsLoop] at h
    simp [← h]
  | cons seg rest ih =>
    rw [parseAddrsLoop] at h
    cases ha : parse_addr (String.mk seg) with
    | error e => rw [ha] at h; exact absurd h (by simp)
    | ok a =>
      rw [ha] at h
      cases hr : parseAddrsLoop rest with
      | error e => rw [hr] at h; exact absurd h (by simp)
      | ok addrs =>
        rw [hr] at h
        cases h
        simp [ih addrs hr]

theorem parse_addrs_empty_val : parse_addrs "" = Except.error "cannot parse address" := by rfl

@[simp] theorem exceptIsOk_error (e : ε) : (Except.error e : Except ε α).isOk = false := rfl

@[simp] theorem exceptIsOk_ok (a : α) : (Except.ok a : Except ε α).isOk = true := rfl

theorem processHeader_bad (acc : Msg) (kv : List Char × List Char)
    (hk : isAddrHeaderKey kv.1 = true) (hv : trimStr (String.mk kv.2) = "") :
    (processHeader acc kv).isOk = false := by
  simp only [isAddrHeaderKey, Bool.or_eq_true, beq_iff_eq] at hk
  simp only [processHeader]
  rcases hk with (((h | h) | h) | h) | h <;>
    simp [h, hv, parse_addrs_empty_val, Except.map]

theorem foldlM_processHeader_bad (hs : List (List Char × List Char)) :
    ∀ acc : Msg,
      (∃ kv ∈ hs, isAddrHeaderKey kv.1 = true ∧ trimStr (String.mk kv.2) = "") →
      (hs.foldlM processHeader acc).isOk = false := by
  induction hs with
  | nil => intro acc hbad; rcases hbad with ⟨kv, hmem, _⟩; cases hmem
  | cons kv rest ih =>
    intro acc hbad
    rw [List.foldlM_cons]
    cases hh : processHeader acc kv with
    | error e =>
      rfl
    | ok acc' =>
      show (rest.foldlM processHeader acc').isOk = false
      rcases hbad with ⟨bad, hmem, hkey, hval⟩
      rcases List.mem_cons.mp hmem with heq | hmem'
      · exfalso
        have hbadres := processHeader_bad acc kv (heq ▸ hkey) (heq ▸ hval)
        rw [hh] at hbadres
        exact absurd hbadres (by simp)
      · exact ih acc' ⟨bad, hmem', hkey, hval⟩

/-- C10: `parse_addrs` never returns `Ok(None)` — comma splitting yields at
least one segment and an empty segment fails to parse, so the result is
either an error or a non-empty list; consequently `from_tpl` fails (rather
than leaving the field absent) on any template one of whose
From/To/Reply-To/Cc/Bcc headers has an empty or whitespace-only value. -/
theorem c10_parse_addrs_never_ok_none :
    (∀ s : String, parse_addrs s ≠ Except.ok none) ∧
    (∀ tpl : String, ∀ headers body, parseMail tpl.data = some (headers, body) →
      (∃ kv ∈ headers, isAddrHeaderKey kv.1 = true ∧ trimStr (String.mk kv.2) = "") →
      (Msg.from_tpl tpl).isOk = false) := by
  constructor
  · intro s
    unfold parse_addrs
    cases hl : parseAddrsLoop (splitComma s.data) with
    | error e => simp
    | ok addrs =>
      have hlen := parseAddrsLoop_ok_length _ _ hl
      have hne : ¬ addrs.isEmpty = true := by
        cases addrs with
        | nil =>
          exfalso
          exact splitComma_ne_nil s.data (List.length_eq_zero.mp hlen.symm)
        | cons a rest => simp
      simp [hne]
  · intro tpl headers body hparse hbad
    have hfold := foldlM_processHeader_bad headers Msg.default hbad
    unfold Msg.from_tpl
    rw [hparse]
    cases hf : headers.foldlM processHeader Msg.default with
    | error e => simp [hf]
    | ok m =>
      rw [hf] at hfold
      exact absurd hfold (by simp)

/-- C10 witness: the concrete template `"To: \n\nHello"` has a `To` header
whose value is whitespace-only, and `from_tpl` rejects it. -/
theorem c10_witness : (Msg.from_tpl "To: \n\nHello").isOk = false :=
  c10_parse_addrs_never_ok_none.2 "To: \n\nHello" [("To".data, " ".data)] "Hello".data
    (by decide)
    ⟨("To".data, " ".data), by decide, by decide, by decide⟩

/-! ## Parsing a rendered template -/

theorem takeWhile_append_of_all {α : Type} (p : α → Bool) (xs rest : List α)
    (h : ∀ c ∈ xs, p c = true) :
    (xs ++ rest).takeWhile p = xs ++ rest.takeWhile p := by
  induction xs with
  | nil => simp
  | cons x xs' ih =>
    have hx := h x (List.mem_cons_self x xs')
    simp [List.takeWhile_cons, hx]
    exact ih (fun c hc => h c (List.mem_cons_of_mem _ hc))

theorem dropWhile_append_of_all {α : Type} (p : α → Bool) (xs rest : List α)
    (h : ∀ c ∈ xs, p c = true) :
    (xs ++ rest).dropWhile p = rest.dropWhile p := by
  induction xs with
  | nil => simp
  | cons x xs' ih =>
    have hx := h x (List.mem_cons_self x xs')
    simp [List.dropWhile_cons, hx]
    exact ih (fun c hc => h c (List.mem_cons_of_mem _ hc))

theorem parseMailAux_scan (xs : List Char) (hxs : ∀ c ∈ xs, c ≠ '\n') :
    ∀ (cur : List Char) (hs : List (List Char × List Char)) (rest : List Char),
      parseMailAux cur hs (xs ++ rest) = parseMailAux (xs.reverse ++ cur) hs rest := by
  induction xs with
  | nil => intro cur hs rest; simp
  | cons x xs' ih =>
    intro cur hs rest
    have hx : x ≠ '\n' := hxs x (List.mem_cons_self x xs')
    rw [List.cons_append, parseMailAux, if_neg hx,
      ih (fun c hc => hxs c (List.mem_cons_of_mem _ hc)) (x :: cur) hs rest]
    simp [List.append_assoc]

theorem parseMailAux_sep (hs : List (List Char × List Char)) (rest : List Char) :
    parseMailAux [] hs ('\n' :: rest) = some (hs.reverse, rest) := rfl

theorem splitColon_header (k v : List Char) (hk2 : ∀ c ∈ k, c ≠ ':') :
    splitColon (k ++ ':' :: v) = some (k, v) := by
  unfold splitColon
  have hany : (k ++ ':' :: v).any (fun c => decide (c = ':')) = true := by
    simp [List.any_append]
  rw [if_pos hany]
  have htake : (k ++ ':' :: v).takeWhile (fun c => decide (c ≠ ':')) = k := by
    rw [takeWhile_append_of_all _ k _ (fun c hc => by simp [hk2 c hc])]
    simp [List.takeWhile_cons]
  have hdrop : (k ++ ':' :: v).dropWhile (fun c => decide (c ≠ ':')) = ':' :: v := by
    rw [dropWhile_append_of_all _ k _ (fun c hc => by simp [hk2 c hc])]
    simp [List.dropWhile_cons]
  rw [htake, hdrop]
  rfl

theorem headerLineStr_data (k v : String) :
    (headerLineStr k v).data = k.data ++ ':' :: ' ' :: (v.data ++ ['\n']) := by
  have h1 : (": ").data = [':', ' '] := rfl
  have h2 : ("\n").data = ['\n'] := rfl
  simp [headerLineStr, h1, h2]

theorem parseMailAux_headerLine (k v : String) (hs : List (List Char × List Char))
    (rest : List Char) (hk1 : k.data ≠ []) (hk2 : ∀ c ∈ k.data, c ≠ ':')
    (hk3 : ∀ c ∈ k.data, c ≠ '\n') (hv : noNL v) :
    parseMailAux [] hs ((headerLineStr k v).data ++ rest)
      = parseMailAux [] ((k.data, ' ' :: v.data) :: hs) rest := by
  rw [headerLineStr_data]
  have hsh : (k.data ++ ':' :: ' ' :: (v.data ++ ['\n'])) ++ rest
      = (k.data ++ ':' :: ' ' :: v.data) ++ ('\n' :: rest) := by
    simp [List.append_assoc]
  rw [hsh]
  have hall : ∀ c ∈ k.data ++ ':' :: ' ' :: v.data, c ≠ '\n' := by
    intro c hc
    rcases List.mem_append.mp hc with h | h
    · exact hk3 c h
    · rcases List.mem_cons.mp h with h1 | h1
      · subst h1; decide
      · rcases List.mem_cons.mp h1 with h2 | h2
        · subst h2; decide
        · exact hv c h2
  rw [parseMailAux_scan _ hall [] hs ('\n' :: rest), parseMailAux, if_pos rfl]
  have hne : ((k.data ++ ':' :: ' ' :: v.data).reverse ++ []).isEmpty = false := by
    cases hk : k.data with
    | nil => exact absurd hk hk1
    | cons a as => simp [List.isEmpty_eq_false_iff_exists_mem]
  rw [hne]
  simp only [List.append_nil, List.reverse_reverse]
  rw [splitColon_header _ _ hk2]
  rfl

theorem data_match_opt (o : Option String) (key : String) :
    (match o with | some s => headerLineStr key s | none => "").data
      = optHeaderChunk key o := by
  cases o <;> rfl

theorem parseMailAux_optSegment (o : Option String) (key : String)
    (hs : List (List Char × List Char)) (rest : List Char)
    (hk1 : key.data ≠ []) (hk2 : ∀ c ∈ key.data, c ≠ ':')
    (hk3 : ∀ c ∈ key.data, c ≠ '\n') (hv : noNLopt o) :
    parseMailAux [] hs (optHeaderChunk key o ++ rest)
      = parseMailAux [] (optHeaderKV key o ++ hs) rest := by
  cases o with
  | none => simp [optHeaderChunk, optHeaderKV]
  | some s =>
    have h := parseMailAux_headerLine key s hs rest hk1 hk2 hk3 hv
    simpa [optHeaderChunk, optHeaderKV] using h

theorem reverse_optHeaderKV (key : String) (o : Option String) :
    (optHeaderKV key o).reverse = optHeaderKV key o := by
  cases o <;> rfl

theorem parseMail_to_tpl (m : Msg) (opts : TplOverride) (acct : Account)
    (hwf : TplWF m opts acct) :
    parseMail (m.to_tpl opts acct).data
      = some (tplHeaders m opts acct, tplBodyChars m opts acct) := by
  obtain ⟨hfrom, hto, hcc, hbcc, hirt, hsubj⟩ := hwf
  have hct : ("Content-Type: text/plain; charset=utf-8\n" : String)
      = headerLineStr "Content-Type" "text/plain; charset=utf-8" := rfl
  have hnl : ("\n" : String).data = ['\n'] := rfl
  unfold parseMail
  simp only [Msg.to_tpl, hct, String.data_append,
    data_match_opt m.in_reply_to "In-Reply-To",
    data_match_opt (ccVal m opts) "Cc",
    data_match_opt (bccVal m opts) "Bcc",
    hnl, List.append_assoc]
  rw [parseMailAux_headerLine "Content-Type" "text/plain; charset=utf-8" _ _
      (by decide) (by decide) (by decide) (by intro c hc h; revert hc; subst h; decide)]
  rw [parseMailAux_optSegment m.in_reply_to "In-Reply-To" _ _
      (by decide) (by decide) (by decide) hirt]
  rw [parseMailAux_headerLine "From" (fromVal opts acct) _ _
      (by decide) (by decide) (by decide) hfrom]
  rw [parseMailAux_headerLine "To" (toVal m opts) _ _
      (by decide) (by decide) (by decide) hto]
  rw [parseMailAux_optSegment (ccVal m opts) "Cc" _ _
      (by decide) (by decide) (by decide) hcc]
  rw [parseMailAux_optSegment (bccVal m opts) "Bcc" _ _
      (by decide) (by decide) (by decide) hbcc]
  rw [parseMailAux_headerLine "Subject" (subjVal m opts) _ _
      (by decide) (by decide) (by decide) hsubj]
  simp only [List.singleton_append]
  rw [parseMailAux_sep]
  simp only [tplHeaders, tplBodyChars, List.reverse_cons, List.reverse_append,
    reverse_optHeaderKV, List.append_assoc, List.append_nil, List.nil_append,
    List.reverse_nil, List.singleton_append, List.cons_append]

/-! ## Theorems for C4 -/

/-- C4 counterexample: with no From override and entity `from = [alice]`,
the rendered From header line contains the account address, not the entity
list — the template is byte-for-byte the same as for an entity with no
`from` at all, and its From line reads `From: bob@x.com`. -/
theorem c4_counterexample :
    Msg.to_tpl { Msg.default with «from» := some [⟨none, "alice@x.com"⟩] }
        TplOverride.default ⟨"bob@x.com", none⟩
      = "Content-Type: text/plain; charset=utf-8\nFrom: bob@x.com\nTo: \nSubject: \n\n\n"
    ∧ Msg.to_tpl { Msg.default with «from» := some [⟨none, "alice@x.com"⟩] }
        TplOverride.default ⟨"bob@x.com", none⟩
      = Msg.to_tpl Msg.default TplOverride.default ⟨"bob@x.com", none⟩ := by
  exact ⟨rfl, rfl⟩

/-- C4 (amended): when every rendered header value is newline-free, the
rendered template parses into exactly the ordered header list in which each
value comes from the explicit override when supplied, otherwise from the
entity field for To/Cc/Bcc/Subject, while the From value falls back to the
account address — the entity `from` field is never consulted (rendering is
invariant under changing it). -/
theorem c4_tpl_header_values (m : Msg) (opts : TplOverride) (acct : Account)
    (hwf : TplWF m opts acct) :
    parseMail (m.to_tpl opts acct).data
      = some (tplHeaders m opts acct, tplBodyChars m opts acct)
    ∧ ∀ f : Option (List Addr),
        Msg.to_tpl { m with «from» := f } opts acct = m.to_tpl opts acct := by
  refine ⟨parseMail_to_tpl m opts acct hwf, fun f => ?_⟩
  simp [Msg.to_tpl, toVal, ccVal, bccVal, subjVal, Msg.fold_text_plain_parts]

/-- C4 witness: the parse-structure part of the amended claim evaluated at
the default entity, default overrides and the account `bob@x.com`. -/
theorem c4_witness :
    parseMail ((Msg.default).to_tpl TplOverride.default ⟨"bob@x.com", none⟩).data
      = some (tplHeaders Msg.default TplOverride.default ⟨"bob@x.com", none⟩,
          tplBodyChars Msg.default TplOverride.default ⟨"bob@x.com", none⟩) :=
  (c4_tpl_header_values Msg.default TplOverride.default ⟨"bob@x.com", none⟩
    (by constructor <;> decide)).1

/-! ## Address round-trip lemmas -/

theorem isWS_false_of_mid (c : Char) (h1 : 33 ≤ c.toNat) (h2 : c.toNat ≤ 132) :
    isWS c = false := by
  simp only [isWS, Bool.or_eq_false_iff, Bool.and_eq_false_iff, beq_eq_false_iff_ne,
    ne_eq, decide_eq_false_iff_not, not_le]
  omega

theorem userChar_props (c : Char) (h : isUserChar c = true) :
    c ≠ ',' ∧ c ≠ '<' ∧ c ≠ '>' ∧ isWS c = false := by
  simp only [isUserChar, Bool.or_eq_true, Bool.and_eq_true, decide_eq_true_eq] at h
  rcases h with ((((((h | h) | h) | h) | h) | h) | h) | h
  · refine ⟨?_, ?_, ?_, isWS_false_of_mid c (by omega) (by omega)⟩ <;>
      (intro hc; rw [hc] at h; exact absurd h (by decide))
  · refine ⟨?_, ?_, ?_, isWS_false_of_mid c (by omega) (by omega)⟩ <;>
      (intro hc; rw [hc] at h; exact absurd h (by decide))
  · refine ⟨?_, ?_, ?_, isWS_false_of_mid c (by omega) (by omega)⟩ <;>
      (intro hc; rw [hc] at h; exact absurd h (by decide))
  all_goals subst h; exact ⟨by decide, by decide, by decide, by decide⟩

theorem domainChar_props (c : Char) (h : isDomainChar c = true) :
    c ≠ ',' ∧ c ≠ '<' ∧ c ≠ '>' ∧ isWS c = false := by
  simp only [isDomainChar, Bool.or_eq_true, Bool.and_eq_true, decide_eq_true_eq] at h
  rcases h with (((h | h) | h) | h) | h
  · refine ⟨?_, ?_, ?_, isWS_false_of_mid c (by omega) (by omega)⟩ <;>
      (intro hc; rw [hc] at h; exact absurd h (by decide))
  · refine ⟨?_, ?_, ?_, isWS_false_of_mid c (by omega) (by omega)⟩ <;>
      (intro hc; rw [hc] at h; exact absurd h (by decide))
  · refine ⟨?_, ?_, ?_, isWS_false_of_mid c (by omega) (by omega)⟩ <;>
      (intro hc; rw [hc] at h; exact absurd h (by decide))
  all_goals subst h; exact ⟨by decide, by decide, by decide, by decide⟩

theorem wfEmail_chars_props (l : List Char) (h : wfEmailChars l = true) :
    l ≠ [] ∧ ∀ c ∈ l, c ≠ ',' ∧ c ≠ '<' ∧ c ≠ '>' ∧ isWS c = false := by
  unfold wfEmailChars at h
  cases hd : l.dropWhile (fun c => decide (c ≠ '@')) with
  | nil => rw [hd] at h; exact absurd h (by simp)
  | cons c0 domain =>
    rw [hd] at h
    by_cases hc0 : c0 = '@'
    · subst hc0
      simp only [Bool.and_eq_true, List.all_eq_true] at h
      obtain ⟨⟨⟨hu, hd0⟩, hall_u⟩, hall_d⟩ := h
      have hsplit : l = l.takeWhile (fun c => decide (c ≠ '@')) ++ '@' :: domain := by
        rw [← hd, List.takeWhile_append_dropWhile]
      constructor
      · intro hnil
        rw [hnil] at hsplit
        exact absurd hsplit.symm (by simp)
      · intro c hc
        rw [hsplit] at hc
        rcases List.mem_append.mp hc with hmem | hmem
        · exact userChar_props c (hall_u c hmem)
        · rcases List.mem_cons.mp hmem with hmem1 | hmem1
          · subst hmem1; exact ⟨by decide, by decide, by decide, by decide⟩
          · exact domainChar_props c (hall_d c hmem1)
    · exfalso
      have : ¬ (decide (c0 ≠ '@') = false) := by simpa using hc0
      have hcc := List.head_dropWhile_not (fun c => decide (c ≠ '@')) (l := l)
      rw [hd] at hcc
      simp at hcc
      exact hc0 hcc

theorem dropWhile_isWS_eq_self (l : List Char) (h : isWS (l.headD 'a') = false) :
    l.dropWhile isWS = l := by
  cases l with
  | nil => rfl
  | cons c rest => simp only [List.headD_cons] at h; simp [List.dropWhile_cons, h]

theorem trimL_eq_self (l : List Char) (h1 : isWS (l.headD 'a') = false)
    (h2 : isWS (l.reverse.headD 'a') = false) : trimL l = l := by
  unfold trimL
  rw [dropWhile_isWS_eq_self l h1, dropWhile_isWS_eq_self l.reverse h2,
    List.reverse_reverse]

theorem trimL_cons_space (l : List Char) : trimL (' ' :: l) = trimL l := by
  unfold trimL
  have hws : isWS ' ' = true := by decide
  rw [List.dropWhile_cons, hws]
  simp

theorem headD_of_all_not_ws (l : List Char) (h : ∀ c ∈ l, isWS c = false) :
    isWS (l.headD 'a') = false := by
  cases l with
  | nil => decide
  | cons c rest => exact h c (List.mem_cons_self c rest)

theorem trimL_eq_self_of_all (l : List Char) (h : ∀ c ∈ l, isWS c = false) :
    trimL l = l := by
  refine trimL_eq_self l (headD_of_all_not_ws l h) (headD_of_all_not_ws l.reverse ?_)
  intro c hc
  exact h c (List.mem_reverse.mp hc)

theorem headD_append_left (l r : List Char) (hl : l ≠ []) (d : Char) :
    (l ++ r).headD d = l.headD d := by
  cases l with
  | nil => exact absurd rfl hl
  | cons c rest => rfl

/-- The rendered form of a well-formed named address, as characters. -/
theorem toStr_data_some (n : String) (e : String) :
    (Addr.toStr ⟨some n, e⟩).data = (n.data ++ [' ']) ++ '<' :: (e.data ++ ['>']) := by
  have h1 : (" <").data = [' ', '<'] := rfl
  have h2 : (">").data = ['>'] := rfl
  simp [Addr.toStr, h1, h2]

theorem toStr_data_none (e : String) : (Addr.toStr ⟨none, e⟩).data = e.data := rfl

theorem parseMailbox_toStr (a : Addr) (h : wfAddr a) : parseMailbox a.toStr = some a := by
  obtain ⟨hemail, hname⟩ := h
  have hprops := wfEmail_chars_props a.email.data hemail
  cases a with
  | mk nm e =>
    cases nm with
    | none =>
      simp only [parseMailbox]
      have hany : ((Addr.toStr ⟨none, e⟩).data.any (fun c => decide (c = '<'))) = false := by
        rw [toStr_data_none]
        simp only [List.any_eq_false, decide_eq_false_iff_not]
        intro c hc
        simpa using (hprops.2 c hc).2.1
      rw [hany]
      rw [toStr_data_none]
      simp [hemail, Addr.toStr]
    | some n =>
      simp only [wfAddr] at hname
      obtain ⟨hn1, hn2, hn3, hn4⟩ := hname
      simp only [parseMailbox]
      rw [toStr_data_some]
      have hany : (((n.data ++ [' ']) ++ '<' :: (e.data ++ ['>'])).any
          (fun c => decide (c = '<'))) = true := by
        simp [List.any_append]
      rw [if_pos hany]
      have hnamepart : ((n.data ++ [' ']) ++ '<' :: (e.data ++ ['>'])).takeWhile
          (fun c => decide (c ≠ '<')) = n.data ++ [' '] := by
        rw [takeWhile_append_of_all _ (n.data ++ [' ']) _ ?_]
        · simp [List.takeWhile_cons]
        · intro c hc
          rcases List.mem_append.mp hc with hm | hm
          · simp [(hn2 c hm).1]
          · rcases List.mem_singleton.mp hm with rfl
            decide
      have hrest : ((n.data ++ [' ']) ++ '<' :: (e.data ++ ['>'])).dropWhile
          (fun c => decide (c ≠ '<')) = '<' :: (e.data ++ ['>']) := by
        rw [dropWhile_append_of_all _ (n.data ++ [' ']) _ ?_]
        · simp [List.dropWhile_cons]
        · intro c hc
          rcases List.mem_append.mp hc with hm | hm
          · simp [(hn2 c hm).1]
          · rcases List.mem_singleton.mp hm with rfl
            decide
      rw [hnamepart, hrest]
      simp only [List.tail_cons]
      have hemailpart : (e.data ++ ['>']).takeWhile (fun c => decide (c ≠ '>')) = e.data := by
        rw [takeWhile_append_of_all _ e.data _ ?_]
        · simp [List.takeWhile_cons]
        · intro c hc
          simp [(hprops.2 c hc).2.2.1]
      have hafter : (e.data ++ ['>']).dropWhile (fun c => decide (c ≠ '>')) = ['>'] := by
        rw [dropWhile_append_of_all _ e.data _ ?_]
        · simp [List.dropWhile_cons]
        · intro c hc
          simp [(hprops.2 c hc).2.2.1]
      rw [hemailpart, hafter]
      have hcond : ((['>'] == ['>'] : Bool) && wfEmailChars e.data) = true := by
        simp [hemail]
      rw [if_pos hcond]
      have htrim : trimL (n.data ++ [' ']) = n.data := by
        unfold trimL
        have hd1 : (n.data ++ [' ']).dropWhile isWS = n.data ++ [' '] := by
          refine dropWhile_isWS_eq_self _ ?_
          rw [headD_append_left _ _ hn1]
          exact hn3
        rw [hd1]
        have hrev : (n.data ++ [' ']).reverse = ' ' :: n.data.reverse := by
          simp
        rw [hrev]
        have hws : isWS ' ' = true := by decide
        rw [List.dropWhile_cons, hws]
        simp only [if_true]
        rw [dropWhile_isWS_eq_self _ hn4, List.reverse_reverse]
      rw [htrim]
      have hne : n.data.isEmpty = false := by
        cases hd : n.data with
        | nil => exact absurd hd hn1
        | cons c rest => rfl
      simp only [hne, Bool.false_eq_true, if_false]

theorem ne_nl_of_not_ws (c : Char) (h : isWS c = false) : c ≠ '\n' := by
  intro hc
  rw [hc] at h
  exact absurd h (by decide)

theorem stringMk_data (s : String) : String.mk s.data = s := rfl

theorem toStr_props (a : Addr) (h : wfAddr a) :
    (a.toStr).data ≠ [] ∧ (∀ c ∈ (a.toStr).data, c ≠ ',' ∧ c ≠ '\n') ∧
    isWS ((a.toStr).data.headD 'a') = false ∧
    isWS ((a.toStr).data.reverse.headD 'a') = false := by
  obtain ⟨hemail, hname⟩ := h
  have hprops := wfEmail_chars_props a.email.data hemail
  cases a with
  | mk nm e =>
    cases nm with
    | none =>
      rw [toStr_data_none]
      refine ⟨hprops.1, fun c hc => ?_, ?_, ?_⟩
      · exact ⟨(hprops.2 c hc).1, ne_nl_of_not_ws c (hprops.2 c hc).2.2.2⟩
      · exact headD_of_all_not_ws _ (fun c hc => (hprops.2 c hc).2.2.2)
      · exact headD_of_all_not_ws _
          (fun c hc => (hprops.2 c (List.mem_reverse.mp hc)).2.2.2)
    | some n =>
      simp only [wfAddr] at hname
      obtain ⟨hn1, hn2, hn3, hn4⟩ := hname
      rw [toStr_data_some]
      refine ⟨by simp, fun c hc => ?_, ?_, ?_⟩
      · rcases List.mem_append.mp hc with hm | hm
        · rcases List.mem_append.mp hm with hm1 | hm1
          · exact ⟨(hn2 c hm1).2.2.1, (hn2 c hm1).2.2.2⟩
          · rcases List.mem_singleton.mp hm1 with rfl
            exact ⟨by decide, by decide⟩
        · rcases List.mem_cons.mp hm with hm1 | hm1
          · subst hm1; exact ⟨by decide, by decide⟩
          · rcases List.mem_append.mp hm1 with hm2 | hm2
            · exact ⟨(hprops.2 c hm2).1, ne_nl_of_not_ws c (hprops.2 c hm2).2.2.2⟩
            · rcases List.mem_singleton.mp hm2 with rfl
              exact ⟨by decide, by decide⟩
      · rw [headD_append_left _ _ (by simp [hn1]), headD_append_left _ _ hn1]
        exact hn3
      · have hrev : ((n.data ++ [' ']) ++ '<' :: (e.data ++ ['>'])).reverse
            = '>' :: (e.data.reverse ++ '<' :: (n.data ++ [' ']).reverse) := by
          simp
        rw [hrev, List.headD_cons]
        decide

theorem parse_addr_toStr (a : Addr) (h : wfAddr a) :
    parse_addr a.toStr = Except.ok a := by
  have hp := toStr_props a h
  unfold parse_addr
  have htrim : trimStr a.toStr = a.toStr := by
    unfold trimStr
    rw [trimL_eq_self _ hp.2.2.1 hp.2.2.2, stringMk_data]
  rw [htrim, parseMailbox_toStr a h]

theorem parse_addr_space (l : List Char) :
    parse_addr (String.mk (' ' :: l)) = parse_addr (String.mk l) := by
  unfold parse_addr trimStr
  rw [show (String.mk (' ' :: l)).data = ' ' :: l from rfl, trimL_cons_space]

theorem splitComma_comma_free_append (x : List Char) (hx : ∀ c ∈ x, c ≠ ',') :
    ∀ (l : List Char) (s : List Char) (ss : List (List Char)),
      splitComma l = s :: ss → splitComma (x ++ l) = (x ++ s) :: ss := by
  induction x with
  | nil => intro l s ss h; simpa using h
  | cons c x' ih =>
    intro l s ss h
    have hc : ¬ c = ',' := hx c (List.mem_cons_self _ _)
    have ih' := ih (fun d hd => hx d (List.mem_cons_of_mem _ hd)) l s ss h
    rw [List.cons_append]
    simp [splitComma, hc, ih']

theorem splitComma_of_comma_free (x : List Char) (hx : ∀ c ∈ x, c ≠ ',') :
    splitComma x = [x] := by
  have h := splitComma_comma_free_append x hx [] [] [] rfl
  simpa using h

theorem joinAddrs_single (a : Addr) : joinAddrs [a] = a.toStr := rfl

theorem joinAddrs_cons (a b : Addr) (rest : List Addr) :
    joinAddrs (a :: b :: rest) = a.toStr ++ ", " ++ joinAddrs (b :: rest) := rfl

theorem joinAddrs_ne_nil (l : List Addr) (hne : l ≠ []) (hwf : ∀ a ∈ l, wfAddr a) :
    (joinAddrs l).data ≠ [] := by
  cases l with
  | nil => exact absurd rfl hne
  | cons a rest =>
    cases rest with
    | nil =>
      rw [joinAddrs_single]
      exact (toStr_props a (hwf a (List.mem_cons_self _ _))).1
    | cons b rest' =>
      rw [joinAddrs_cons]
      simp only [String.data_append]
      intro hemp
      exact (toStr_props a (hwf a (List.mem_cons_self _ _))).1 (by
        rcases List.append_eq_nil.mp hemp with ⟨h1, _⟩
        rcases List.append_eq_nil.mp h1 with ⟨h2, _⟩
        exact h2)

theorem joinAddrs_head_not_ws (l : List Addr) (hwf : ∀ a ∈ l, wfAddr a) :
    isWS ((joinAddrs l).data.headD 'a') = false := by
  cases l with
  | nil => decide
  | cons a rest =>
    cases rest with
    | nil =>
      rw [joinAddrs_single]
      exact (toStr_props a (hwf a (List.mem_cons_self _ _))).2.2.1
    | cons b rest' =>
      rw [joinAddrs_cons]
      have hp := toStr_props a (hwf a (List.mem_cons_self _ _))
      simp only [String.data_append]
      rw [List.append_assoc, headD_append_left _ _ hp.1]
      exact hp.2.2.1

theorem joinAddrs_last_not_ws (l : List Addr) (hwf : ∀ a ∈ l, wfAddr a) :
    isWS ((joinAddrs l).data.reverse.headD 'a') = false := by
  induction l with
  | nil => decide
  | cons a rest ih =>
    cases rest with
    | nil =>
      rw [joinAddrs_single]
      exact (toStr_props a (hwf a (List.mem_cons_self _ _))).2.2.2
    | cons b rest' =>
      rw [joinAddrs_cons]
      have hwf' : ∀ x ∈ b :: rest', wfAddr x := fun x hx =>
        hwf x (List.mem_cons_of_mem _ hx)
      have hne : (joinAddrs (b :: rest')).data ≠ [] :=
        joinAddrs_ne_nil _ (by simp) hwf'
      simp only [String.data_append, List.reverse_append]
      rw [headD_append_left _ _ (by simpa using hne)]
      exact ih hwf'

theorem joinAddrs_no_nl (l : List Addr) (hwf : ∀ a ∈ l, wfAddr a) :
    noNL (joinAddrs l) := by
  induction l with
  | nil => intro c hc; cases hc
  | cons a rest ih =>
    cases rest with
    | nil =>
      rw [joinAddrs_single]
      intro c hc
      exact ((toStr_props a (hwf a (List.mem_cons_self _ _))).2.1 c hc).2
    | cons b rest' =>
      rw [joinAddrs_cons]
      intro c hc
      simp only [String.data_append] at hc
      rcases List.mem_append.mp hc with hm | hm
      · rcases List.mem_append.mp hm with hm1 | hm1
        · exact ((toStr_props a (hwf a (List.mem_cons_self _ _))).2.1 c hm1).2
        · have hc2 : c = ',' ∨ c = ' ' := by simpa using hm1
          rcases hc2 with rfl | rfl <;> decide
      · exact ih (fun x hx => hwf x (List.mem_cons_of_mem _ hx)) c hm

theorem toStr_comma_free_all (a : Addr) (h : wfAddr a) :
    ∀ c ∈ (a.toStr).data, c ≠ ',' := fun c hc => ((toStr_props a h).2.1 c hc).1

theorem parseAddrsLoop_join (l : List Addr) (hne : l ≠ [])
    (hwf : ∀ a ∈ l, wfAddr a) :
    parseAddrsLoop (splitComma (joinAddrs l).data) = Except.ok l ∧
    parseAddrsLoop (splitComma (' ' :: (joinAddrs l).data)) = Except.ok l := by
  induction l with
  | nil => exact absurd rfl hne
  | cons a rest ih =>
    have hwa : wfAddr a := hwf a (List.mem_cons_self _ _)
    cases rest with
    | nil =>
      rw [joinAddrs_single]
      have hsplit := splitComma_of_comma_free (a.toStr).data (toStr_comma_free_all a hwa)
      have hsplit2 : splitComma (' ' :: (a.toStr).data) = [' ' :: (a.toStr).data] := by
        refine splitComma_of_comma_free _ ?_
        intro c hc
        rcases List.mem_cons.mp hc with rfl | hm
        · decide
        · exact toStr_comma_free_all a hwa c hm
      constructor
      · rw [hsplit]
        simp [parseAddrsLoop, stringMk_data, parse_addr_toStr a hwa]
      · rw [hsplit2]
        simp [parseAddrsLoop, parse_addr_space, stringMk_data, parse_addr_toStr a hwa]
    | cons b rest' =>
      have hwf' : ∀ x ∈ b :: rest', wfAddr x := fun x hx =>
        hwf x (List.mem_cons_of_mem _ hx)
      have ih' := ih (by simp) hwf'
      rw [joinAddrs_cons]
      have hdata : (a.toStr ++ ", " ++ joinAddrs (b :: rest')).data
          = (a.toStr).data ++ ',' :: (' ' :: (joinAddrs (b :: rest')).data) := by
        simp only [String.data_append]
        simp
      have hsp : splitComma (',' :: (' ' :: (joinAddrs (b :: rest')).data))
          = [] :: splitComma (' ' :: (joinAddrs (b :: rest')).data) := rfl
      cases hss : splitComma (' ' :: (joinAddrs (b :: rest')).data) with
      | nil => exact absurd hss (splitComma_ne_nil _)
      | cons s0 ss0 =>
        have hsplit : splitComma ((a.toStr).data ++ ',' :: (' ' :: (joinAddrs (b :: rest')).data))
            = ((a.toStr).data ++ []) :: s0 :: ss0 := by
          refine splitComma_comma_free_append _ (toStr_comma_free_all a hwa) _ _ _ ?_
          rw [hsp, hss]
        have hloop : parseAddrsLoop (s0 :: ss0) = Except.ok (b :: rest') := by
          rw [← hss]
          exact ih'.2
        constructor
        · rw [hdata, hsplit]
          simp only [List.append_nil]
          rw [parseAddrsLoop, stringMk_data, parse_addr_toStr a hwa, hloop]
        · have hdata2 : ' ' :: (a.toStr ++ ", " ++ joinAddrs (b :: rest')).data
              = (' ' :: (a.toStr).data) ++ ',' :: (' ' :: (joinAddrs (b :: rest')).data) := by
            rw [hdata]
            simp
          rw [hdata2]
          have hsplit2 : splitComma ((' ' :: (a.toStr).data) ++ ',' :: (' ' :: (joinAddrs (b :: rest')).data))
              = ((' ' :: (a.toStr).data) ++ []) :: s0 :: ss0 := by
            refine splitComma_comma_free_append _ ?_ _ _ _ ?_
            · intro c hc
              rcases List.mem_cons.mp hc with rfl | hm
              · decide
              · exact toStr_comma_free_all a hwa c hm
            · rw [hsp, hss]
          rw [hsplit2]
          simp only [List.append_nil]
          rw [parseAddrsLoop, parse_addr_space, stringMk_data, parse_addr_toStr a hwa, hloop]

theorem parse_addrs_joinAddrs (l : List Addr) (hne : l ≠ [])
    (hwf : ∀ a ∈ l, wfAddr a) :
    parse_addrs (joinAddrs l) = Except.ok (some l) := by
  unfold parse_addrs
  rw [(parseAddrsLoop_join l hne hwf).1]
  cases l with
  | nil => exact absurd rfl hne
  | cons a rest => rfl

theorem trim_space_val (s : String) (h1 : isWS (s.data.headD 'a') = false)
    (h2 : isWS (s.data.reverse.headD 'a') = false) :
    trimStr (String.mk (' ' :: s.data)) = s := by
  unfold trimStr
  rw [show (String.mk (' ' :: s.data)).data = ' ' :: s.data from rfl,
    trimL_cons_space, trimL_eq_self _ h1 h2, stringMk_data]

theorem parse_addrs_single_email (s : String) (h : wfEmailChars s.data = true) :
    parse_addrs s = Except.ok (some [⟨none, s⟩]) := by
  unfold parse_addrs
  have hprops := wfEmail_chars_props s.data h
  rw [splitComma_of_comma_free s.data (fun c hc => (hprops.2 c hc).1)]
  have hpa : parse_addr s = Except.ok ⟨none, s⟩ := parse_addr_toStr ⟨none, s⟩ ⟨h, trivial⟩
  simp [parseAddrsLoop, stringMk_data, hpa]

theorem ph_contentType (msg : Msg) (v : List Char) :
    processHeader msg ("Content-Type".data, v) = Except.ok msg := rfl

theorem ph_inReplyTo (msg : Msg) (v : List Char) :
    processHeader msg ("In-Reply-To".data, v)
      = Except.ok { msg with in_reply_to := some (trimStr (String.mk v)) } := rfl

theorem ph_subject (msg : Msg) (v : List Char) :
    processHeader msg ("Subject".data, v)
      = Except.ok { msg with subject := trimStr (String.mk v) } := rfl

theorem ph_from (msg : Msg) (v : List Char) :
    processHeader msg ("From".data, v)
      = (parse_addrs (trimStr (String.mk v))).map
          (fun a => { msg with «from» := a }) := rfl

theorem ph_to (msg : Msg) (v : List Char) :
    processHeader msg ("To".data, v)
      = (parse_addrs (trimStr (String.mk v))).map
          (fun a => { msg with «to» := a }) := rfl

theorem ph_cc (msg : Msg) (v : List Char) :
    processHeader msg ("Cc".data, v)
      = (parse_addrs (trimStr (String.mk v))).map
          (fun a => { msg with cc := a }) := rfl

theorem ph_bcc (msg : Msg) (v : List Char) :
    processHeader msg ("Bcc".data, v)
      = (parse_addrs (trimStr (String.mk v))).map
          (fun a => { msg with bcc := a }) := rfl

theorem foldlM_append_ex {α β : Type} (f : β → α → Except String β)
    (l₁ l₂ : List α) (b : β) :
    (l₁ ++ l₂).foldlM f b
      = (match l₁.foldlM f b with
         | Except.error e => Except.error e
         | Except.ok b2 => l₂.foldlM f b2) := by
  induction l₁ generalizing b with
  | nil => rfl
  | cons a l ih =>
    rw [List.cons_append, List.foldlM_cons, List.foldlM_cons]
    cases hf : f b a with
    | error e => rfl
    | ok b2 =>
      show (l ++ l₂).foldlM f b2
          = (match l.foldlM f b2 with
             | Except.error e => Except.error e
             | Except.ok b3 => l₂.foldlM f b3)
      exact ih b2

theorem foldlM_singleton {α β : Type} (f : β → α → Except String β) (b : β) (a : α) :
    [a].foldlM f b = f b a := by
  rw [List.foldlM_cons]
  cases f b a <;> rfl

theorem foldlM_append_ok {α β : Type} {f : β → α → Except String β}
    {l₁ l₂ : List α} {b b₁ : β} (h1 : l₁.foldlM f b = Except.ok b₁) :
    (l₁ ++ l₂).foldlM f b = l₂.foldlM f b₁ := by
  rw [foldlM_append_ex, h1]

theorem seg_irt (o : Option String) (msg : Msg) :
    ∃ r : Msg, (optHeaderKV "In-Reply-To" o).foldlM processHeader msg = Except.ok r ∧
      r.subject = msg.subject ∧ r.«to» = msg.«to» ∧ r.cc = msg.cc ∧
      r.bcc = msg.bcc ∧ r.parts = msg.parts := by
  cases o with
  | none => exact ⟨msg, rfl, rfl, rfl, rfl, rfl, rfl⟩
  | some i =>
    refine ⟨{ msg with in_reply_to := some (trimStr (String.mk (' ' :: i.data))) },
      ?_, rfl, rfl, rfl, rfl, rfl⟩
    rw [show optHeaderKV "In-Reply-To" (some i)
        = [("In-Reply-To".data, ' ' :: i.data)] from rfl,
      foldlM_singleton, ph_inReplyTo]

theorem seg_from (acct : Account) (msg : Msg)
    (hacct : wfEmailChars acct.address.data = true) :
    [("From".data, ' ' :: acct.address.data)].foldlM processHeader msg
      = Except.ok { msg with «from» := some [⟨none, acct.address⟩] } := by
  have hprops := wfEmail_chars_props acct.address.data hacct
  have htrim : trimStr (String.mk (' ' :: acct.address.data)) = acct.address := by
    refine trim_space_val _ ?_ ?_
    · exact headD_of_all_not_ws _ (fun c hc => (hprops.2 c hc).2.2.2)
    · exact headD_of_all_not_ws _
        (fun c hc => (hprops.2 c (List.mem_reverse.mp hc)).2.2.2)
  rw [foldlM_singleton, ph_from, htrim, parse_addrs_single_email _ hacct]
  rfl

theorem trim_space_join (l : List Addr) (hwf : ∀ a ∈ l, wfAddr a) :
    trimStr (String.mk (' ' :: (joinAddrs l).data)) = joinAddrs l :=
  trim_space_val _ (joinAddrs_head_not_ws l hwf) (joinAddrs_last_not_ws l hwf)

theorem seg_to (msg : Msg) (tl : List Addr) (htl : tl ≠ [])
    (htlwf : ∀ a ∈ tl, wfAddr a) :
    [("To".data, ' ' :: (joinAddrs tl).data)].foldlM processHeader msg
      = Except.ok { msg with «to» := some tl } := by
  rw [foldlM_singleton, ph_to, trim_space_join tl htlwf,
    parse_addrs_joinAddrs tl htl htlwf]
  rfl

theorem seg_cc (msg : Msg) (o : Option (List Addr))
    (ho : o = none ∨ ∃ cl, o = some cl ∧ cl ≠ [] ∧ ∀ a ∈ cl, wfAddr a)
    (hmsg : msg.cc = none) :
    ∃ r : Msg, (optHeaderKV "Cc" (o.map joinAddrs)).foldlM processHeader msg
        = Except.ok r ∧
      r.subject = msg.subject ∧ r.«to» = msg.«to» ∧ r.cc = o ∧
      r.bcc = msg.bcc ∧ r.parts = msg.parts := by
  rcases ho with rfl | ⟨cl, rfl, hclne, hclwf⟩
  · exact ⟨msg, rfl, rfl, rfl, hmsg, rfl, rfl⟩
  · refine ⟨{ msg with cc := some cl }, ?_, rfl, rfl, rfl, rfl, rfl⟩
    rw [show (some cl).map joinAddrs = some (joinAddrs cl) from rfl,
      show optHeaderKV "Cc" (some (joinAddrs cl))
        = [("Cc".data, ' ' :: (joinAddrs cl).data)] from rfl,
      foldlM_singleton, ph_cc, trim_space_join cl hclwf,
      parse_addrs_joinAddrs cl hclne hclwf]
    rfl

theorem seg_bcc (msg : Msg) (o : Option (List Addr))
    (ho : o = none ∨ ∃ bl, o = some bl ∧ bl ≠ [] ∧ ∀ a ∈ bl, wfAddr a)
    (hmsg : msg.bcc = none) :
    ∃ r : Msg, (optHeaderKV "Bcc" (o.map joinAddrs)).foldlM processHeader msg
        = Except.ok r ∧
      r.subject = msg.subject ∧ r.«to» = msg.«to» ∧ r.cc = msg.cc ∧
      r.bcc = o ∧ r.parts = msg.parts := by
  rcases ho with rfl | ⟨bl, rfl, hblne, hblwf⟩
  · exact ⟨msg, rfl, rfl, rfl, rfl, hmsg, rfl⟩
  · refine ⟨{ msg with bcc := some bl }, ?_, rfl, rfl, rfl, rfl, rfl⟩
    rw [show (some bl).map joinAddrs = some (joinAddrs bl) from rfl,
      show optHeaderKV "Bcc" (some (joinAddrs bl))
        = [("Bcc".data, ' ' :: (joinAddrs bl).data)] from rfl,
      foldlM_singleton, ph_bcc, trim_space_join bl hblwf,
      parse_addrs_joinAddrs bl hblne hblwf]
    rfl

theorem seg_subject (msg : Msg) (s : String) (hs : trimStr s = s) :
    [("Subject".data, ' ' :: s.data)].foldlM processHeader msg
      = Except.ok { msg with subject := s } := by
  have htrim : trimStr (String.mk (' ' :: s.data)) = s := by
    unfold trimStr
    rw [show (String.mk (' ' :: s.data)).data = ' ' :: s.data from rfl, trimL_cons_space]
    unfold trimStr at hs
    exact hs
  rw [foldlM_singleton, ph_subject, htrim]

theorem fold_tplHeaders_c3 (m : Msg) (acct : Account) (tl : List Addr)
    (hacct : wfEmailChars acct.address.data = true)
    (hto : m.«to» = some tl) (htl : tl ≠ []) (htlwf : ∀ a ∈ tl, wfAddr a)
    (hcc : m.cc = none ∨ ∃ cl, m.cc = some cl ∧ cl ≠ [] ∧ ∀ a ∈ cl, wfAddr a)
    (hbcc : m.bcc = none ∨ ∃ bl, m.bcc = some bl ∧ bl ≠ [] ∧ ∀ a ∈ bl, wfAddr a)
    (hsubj : trimStr m.subject = m.subject) :
    ∃ r : Msg, (tplHeaders m TplOverride.default acct).foldlM processHeader Msg.default
        = Except.ok r ∧ r.subject = m.subject ∧ r.«to» = m.«to» ∧ r.cc = m.cc ∧
        r.bcc = m.bcc ∧ r.parts = [] := by
  have hshape : tplHeaders m TplOverride.default acct
      = [("Content-Type".data, " text/plain; charset=utf-8".data)] ++
        (optHeaderKV "In-Reply-To" m.in_reply_to ++
          ([("From".data, ' ' :: acct.address.data)] ++
            ([("To".data, ' ' :: (joinAddrs tl).data)] ++
              (optHeaderKV "Cc" (m.cc.map joinAddrs) ++
                (optHeaderKV "Bcc" (m.bcc.map joinAddrs) ++
                  [("Subject".data, ' ' :: m.subject.data)]))))) := by
    simp only [tplHeaders, fromVal, toVal, ccVal, bccVal, subjVal, TplOverride.default,
      hto, Option.map_none, Option.map_some, Option.getD_none, Option.getD_some]
    simp [List.append_assoc]
  rw [hshape]
  have hCT : [(("Content-Type").data, (" text/plain; charset=utf-8").data)].foldlM
      processHeader Msg.default = Except.ok Msg.default := by
    rw [foldlM_singleton, ph_contentType]
  rw [foldlM_append_ok hCT]
  obtain ⟨r2, hr2, hs2, ht2, hc2, hb2, hp2⟩ := seg_irt m.in_reply_to Msg.default
  rw [foldlM_append_ok hr2]
  rw [foldlM_append_ok (seg_from acct r2 hacct)]
  rw [foldlM_append_ok (seg_to _ tl htl htlwf)]
  have hcc0 : ({ { r2 with «from» := some [⟨none, acct.address⟩] } with
      «to» := some tl } : Msg).cc = none := by
    show r2.cc = none
    rw [hc2]
    rfl
  obtain ⟨r5, hr5, hs5, ht5, hc5, hb5, hp5⟩ := seg_cc _ m.cc hcc hcc0
  rw [foldlM_append_ok hr5]
  have hbcc0 : r5.bcc = none := by
    rw [hb5]
    show r2.bcc = none
    rw [hb2]
    rfl
  obtain ⟨r6, hr6, hs6, ht6, hc6, hb6, hp6⟩ := seg_bcc r5 m.bcc hbcc hbcc0
  rw [foldlM_append_ok hr6]
  rw [seg_subject r6 m.subject hsubj]
  refine ⟨{ r6 with subject := m.subject }, rfl, rfl, ?_, ?_, ?_, ?_⟩
  · show r6.«to» = m.«to»
    rw [ht6, ht5, hto]
  · show r6.cc = m.cc
    rw [hc6, hc5]
  · show r6.bcc = m.bcc
    rw [hb6]
  · show r6.parts = []
    rw [hp6, hp5]
    show r2.parts = []
    rw [hp2]
    rfl

/-! ## Theorems for C3 -/

/-- C3 counterexample: the template round trip fails as universally stated.
For an entity with `to = None` the rendered `To: ` line has an empty value
and `from_tpl` rejects the whole template; and even when parsing succeeds,
the parsed body is the original folded body plus a trailing newline (here
`"Hi"` comes back as the single part `"Hi\n"`), so the body content is not
recovered exactly. -/
theorem c3_counterexample :
    (Msg.from_tpl (Msg.to_tpl { Msg.default with subject := "Hello" }
        TplOverride.default ⟨"bob@x.com", none⟩)).isOk = false
    ∧ (Msg.from_tpl (Msg.to_tpl
        { Msg.default with
            subject := "Meeting",
            «to» := some [⟨none, "alice@y.com"⟩],
            parts := [Part.textPlain ⟨"Hi"⟩] }
        TplOverride.default ⟨"bob@x.com", none⟩)).map (fun r => r.parts)
      = Except.ok [Part.textPlain ⟨"Hi\n"⟩] := by
  exact ⟨rfl, rfl⟩

/-- C3 (amended): for an entity whose `to` is a present, non-empty list of
well-formed addresses, whose `cc` and `bcc` are each absent or non-empty
and well formed, whose subject is trim-stable and newline-free, whose
`in_reply_to` is newline-free when present, rendered with the default
override set for an account with a well-formed address and no signature:
`from_tpl ∘ to_tpl` succeeds and returns the original `subject`, `to`, `cc`
and `bcc`, and a single plain-text part holding the original folded
plain-text body plus one trailing newline (`message_id` is not
round-tripped). -/
theorem c3_roundtrip_amended (m : Msg) (acct : Account) (tl : List Addr)
    (hsig : acct.sig = none)
    (hacct : wfEmailChars acct.address.data = true)
    (hto : m.«to» = some tl) (htl : tl ≠ []) (htlwf : ∀ a ∈ tl, wfAddr a)
    (hcc : m.cc = none ∨ ∃ cl, m.cc = some cl ∧ cl ≠ [] ∧ ∀ a ∈ cl, wfAddr a)
    (hbcc : m.bcc = none ∨ ∃ bl, m.bcc = some bl ∧ bl ≠ [] ∧ ∀ a ∈ bl, wfAddr a)
    (hsubj : trimStr m.subject = m.subject) (hsubjnl : noNL m.subject)
    (hirt : noNLopt m.in_reply_to) :
    (Msg.from_tpl (m.to_tpl TplOverride.default acct)).map
        (fun r => (r.subject, r.«to», r.cc, r.bcc, r.parts))
      = Except.ok (m.subject, m.«to», m.cc, m.bcc,
          [Part.textPlain ⟨m.fold_text_plain_parts ++ "\n"⟩]) := by
  have hwf : TplWF m TplOverride.default acct := by
    refine ⟨?_, ?_, ?_, ?_, hirt, ?_⟩
    · show noNL acct.address
      intro c hc
      exact ne_nl_of_not_ws c ((wfEmail_chars_props _ hacct).2 c hc).2.2.2
    · show noNL (toVal m TplOverride.default)
      unfold toVal
      rw [hto]
      show noNL (joinAddrs tl)
      exact joinAddrs_no_nl tl htlwf
    · show noNLopt (ccVal m TplOverride.default)
      rcases hcc with hccn | ⟨cl, hccs, _, hclwf⟩
      · show noNLopt (m.cc.map joinAddrs)
        rw [hccn]
        exact trivial
      · show noNLopt (m.cc.map joinAddrs)
        rw [hccs]
        show noNL (joinAddrs cl)
        exact joinAddrs_no_nl cl hclwf
    · show noNLopt (bccVal m TplOverride.default)
      rcases hbcc with hbccn | ⟨bl, hbccs, _, hblwf⟩
      · show noNLopt (m.bcc.map joinAddrs)
        rw [hbccn]
        exact trivial
      · show noNLopt (m.bcc.map joinAddrs)
        rw [hbccs]
        show noNL (joinAddrs bl)
        exact joinAddrs_no_nl bl hblwf
    · show noNL m.subject
      exact hsubjnl
  obtain ⟨r, hr, hrs, hrt, hrc, hrb, hrp⟩ :=
    fold_tplHeaders_c3 m acct tl hacct hto htl htlwf hcc hbcc hsubj
  unfold Msg.from_tpl
  rw [parseMail_to_tpl m TplOverride.default acct hwf]
  show (match (tplHeaders m TplOverride.default acct).foldlM processHeader Msg.default with
      | Except.error e => Except.error e
      | Except.ok msg => Except.ok { msg with
          parts := msg.parts ++ [Part.textPlain
            ⟨String.mk (tplBodyChars m TplOverride.default acct)⟩] }).map
      (fun r : Msg => (r.subject, r.«to», r.cc, r.bcc, r.parts))
    = _
  rw [hr]
  have hbody : String.mk (tplBodyChars m TplOverride.default acct)
      = m.fold_text_plain_parts ++ "\n" := by
    unfold tplBodyChars sigStr
    rw [hsig]
    show String.mk (m.fold_text_plain_parts.data ++ ("" : String).data ++ ['\n']) = _
    have hd : (m.fold_text_plain_parts ++ "\n").data
        = m.fold_text_plain_parts.data ++ ['\n'] := by
      simp [String.data_append]
    apply String.ext
    rw [hd]
    show m.fold_text_plain_parts.data ++ ([] : List Char) ++ ['\n'] = _
    simp
  show Except.ok (r.subject, r.«to», r.cc, r.bcc,
      r.parts ++ [Part.textPlain ⟨String.mk (tplBodyChars m TplOverride.default acct)⟩])
    = Except.ok (m.subject, m.«to», m.cc, m.bcc,
      [Part.textPlain ⟨m.fold_text_plain_parts ++ "\n"⟩])
  rw [hbody, hrs, hrt, hrc, hrb, hrp]
  rfl

/-- Witness for the amended C3 theorem at a concrete entity and account:
subject `"Meeting"`, one recipient `alice@y.com`, one plain-text part
`"Hi"`, account `bob@x.com` with no signature. -/
theorem c3_witness :
    (Msg.from_tpl (Msg.to_tpl
        { Msg.default with
            subject := "Meeting",
            «to» := some [⟨none, "alice@y.com"⟩],
            parts := [Part.textPlain ⟨"Hi"⟩] }
        TplOverride.default ⟨"bob@x.com", none⟩)).map
        (fun r => (r.subject, r.«to», r.cc, r.bcc, r.parts))
      = Except.ok ("Meeting", some [⟨none, "alice@y.com"⟩], none, none,
          [Part.textPlain ⟨(Msg.fold_text_plain_parts
            { Msg.default with
                subject := "Meeting",
                «to» := some [⟨none, "alice@y.com"⟩],
                parts := [Part.textPlain ⟨"Hi"⟩] }) ++ "\n"⟩]) :=
  c3_roundtrip_amended
    { Msg.default with
        subject := "Meeting",
        «to» := some [⟨none, "alice@y.com"⟩],
        parts := [Part.textPlain ⟨"Hi"⟩] }
    ⟨"bob@x.com", none⟩ [⟨none, "alice@y.com"⟩]
    rfl (by decide) rfl (by decide)
    (by intro a ha; simp at ha; rw [ha]; decide)
    (Or.inl rfl) (Or.inl rfl) (by decide) (by decide) trivial

/-! ## Idempotence of the plain-text sanitization (C6) -/

theorem wsTokens_flatten_ne (l : List Char) :
    (wsTokens l).flatten = l ∧ ∀ t ∈ wsTokens l, t ≠ [] := by
  induction l with
  | nil => exact ⟨rfl, by intro t ht; simp [wsTokens] at ht⟩
  | cons c rest ih =>
    unfold wsTokens
    cases h : wsTokens rest with
    | nil =>
      have hrest : rest = [] := by
        have := ih.1
        rw [h] at this
        simpa using this.symm
      subst hrest
      exact ⟨by simp, by intro t ht; simp at ht; simp [ht]⟩
    | cons hd ts =>
      have hdne : hd ≠ [] := ih.2 hd (by rw [h]; exact List.mem_cons_self hd ts)
      cases hd with
      | nil => exact absurd rfl hdne
      | cons d t =>
        by_cases hc : isWS c = isWS d
        · simp only [hc, if_true]
          constructor
          · show ((c :: d :: t) :: ts).flatten = c :: rest
            have h1 : ((d :: t) :: ts).flatten = rest := by rw [← h]; exact ih.1
            simp only [List.flatten_cons] at h1 ⊢
            rw [← h1]
            rfl
          · intro u hu
            rcases List.mem_cons.mp hu with h1 | h1
            · simp [h1]
            · exact ih.2 u (by rw [h]; exact List.mem_cons_of_mem _ h1)
        · simp only [hc, if_false]
          constructor
          · show ([c] :: (d :: t) :: ts).flatten = c :: rest
            have h1 : ((d :: t) :: ts).flatten = rest := by rw [← h]; exact ih.1
            simp only [List.flatten_cons] at h1 ⊢
            rw [h1]
            rfl
          · intro u hu
            rcases List.mem_cons.mp hu with h1 | h1
            · simp [h1]
            · exact ih.2 u (by rw [h]; exact h1)

theorem wsTokens_flatten (l : List Char) : (wsTokens l).flatten = l :=
  (wsTokens_flatten_ne l).1

theorem wsTokens_ne_nil (l : List Char) : ∀ t ∈ wsTokens l, t ≠ [] :=
  (wsTokens_flatten_ne l).2

theorem mem_of_mem_wsTokens (l : List Char) (t : List Char) (c : Char)
    (ht : t ∈ wsTokens l) (hc : c ∈ t) : c ∈ l := by
  rw [← wsTokens_flatten l]
  exact List.mem_flatten.mpr ⟨t, ht, hc⟩

theorem altTok_tail (t : List Char) (ts : List (List Char))
    (h : AltTok (t :: ts)) : AltTok ts := by
  cases h with
  | single => exact AltTok.nil
  | cons _ u ts' _ _ _ hrec => exact hrec

theorem altTok_head_ne (t : List Char) (ts : List (List Char))
    (h : AltTok (t :: ts)) : t ≠ [] := by
  cases h with
  | single _ h1 => exact h1
  | cons _ _ _ h1 => exact h1

theorem altTok_head_homog (t : List Char) (ts : List (List Char))
    (h : AltTok (t :: ts)) : homogTok t := by
  cases h with
  | single _ _ h2 => exact h2
  | cons _ _ _ _ h2 => exact h2

theorem altTok_wsTokens (l : List Char) : AltTok (wsTokens l) := by
  induction l with
  | nil => exact AltTok.nil
  | cons c rest ih =>
    unfold wsTokens
    cases h : wsTokens rest with
    | nil =>
      exact AltTok.single [c] (by simp)
        (by intro x hx; simp at hx; simp [hx, tokClass])
    | cons hd ts =>
      rw [h] at ih
      have hdne : hd ≠ [] := altTok_head_ne hd ts ih
      cases hd with
      | nil => exact absurd rfl hdne
      | cons d t =>
        have hhom : homogTok (d :: t) := altTok_head_homog _ _ ih
        by_cases hc : isWS c = isWS d
        · simp only [hc, if_true]
          have hcls : tokClass (c :: d :: t) = tokClass (d :: t) := by
            simp [tokClass, hc]
          have hhom2 : homogTok (c :: d :: t) := by
            intro x hx
            rcases List.mem_cons.mp hx with h1 | h1
            · rw [h1]
              simp [tokClass]
            · rw [hcls]
              exact hhom x h1
          cases ih with
          | single => exact AltTok.single _ (by simp) hhom2
          | cons _ u ts' h1 h2 h3 hrec =>
            exact AltTok.cons _ u ts' (by simp) hhom2 (by rw [hcls]; exact h3) hrec
        · simp only [hc, if_false]
          refine AltTok.cons [c] (d :: t) ts (by simp)
            (by intro x hx; simp at hx; simp [hx, tokClass]) ?_ ih
          simp only [tokClass, List.headD_cons]
          exact fun hh => hc hh

theorem wsTokens_of_homog (t : List Char) (h1 : t ≠ []) (h2 : homogTok t) :
    wsTokens t = [t] := by
  induction t with
  | nil => exact absurd rfl h1
  | cons c rest ih =>
    cases rest with
    | nil => rfl
    | cons d t' =>
      have hcd : isWS d = isWS c := by
        have := h2 d (by simp)
        simpa [tokClass] using this
      have hrest : homogTok (d :: t') := by
        intro x hx
        have hx2 := h2 x (List.mem_cons_of_mem c hx)
        simp only [tokClass, List.headD_cons] at hx2 ⊢
        rw [hx2, hcd]
      have ihr := ih (by simp) hrest
      rw [wsTokens, ihr]
      simp [hcd]

theorem wsTokens_append (t : List Char) (m : List Char) (h1 : t ≠ [])
    (h2 : homogTok t)
    (h3 : wsTokens m = [] ∨
      ∃ u us, wsTokens m = u :: us ∧ tokClass u ≠ tokClass t) :
    wsTokens (t ++ m) = t :: wsTokens m := by
  induction t with
  | nil => exact absurd rfl h1
  | cons c rest ih =>
    cases rest with
    | nil =>
      show wsTokens (c :: m) = [c] :: wsTokens m
      rw [wsTokens]
      rcases h3 with hm | ⟨u, us, hm, hcls⟩
      · rw [hm]
      · rw [hm]
        have hune : u ≠ [] :=
          wsTokens_ne_nil m u (by rw [hm]; exact List.mem_cons_self u us)
        cases u with
        | nil => exact absurd rfl hune
        | cons d t' =>
          have hne : ¬ (isWS c = isWS d) := by
            simp only [tokClass, List.headD_cons] at hcls
            exact fun hh => hcls (by rw [hh])
          simp [hne]
    | cons d t' =>
      have hcd : isWS d = isWS c := by
        have := h2 d (by simp)
        simpa [tokClass] using this
      have hrest : homogTok (d :: t') := by
        intro x hx
        have hx2 := h2 x (List.mem_cons_of_mem c hx)
        simp only [tokClass, List.headD_cons] at hx2 ⊢
        rw [hx2, hcd]
      have h3r : wsTokens m = [] ∨
          ∃ u us, wsTokens m = u :: us ∧ tokClass u ≠ tokClass (d :: t') := by
        rcases h3 with hm | ⟨u, us, hm, hcls⟩
        · exact Or.inl hm
        · refine Or.inr ⟨u, us, hm, ?_⟩
          simp only [tokClass, List.headD_cons] at hcls ⊢
          rw [hcd]
          exact hcls
      have ihr := ih (by simp) hrest h3r
      show wsTokens (c :: ((d :: t') ++ m)) = (c :: d :: t') :: wsTokens m
      rw [wsTokens, ihr]
      simp [hcd]

theorem wsTokens_flatten_alt (ts : List (List Char)) (h : AltTok ts) :
    wsTokens ts.flatten = ts := by
  induction h with
  | nil => rfl
  | single t h1 h2 =>
    show wsTokens (t ++ []) = [t]
    rw [List.append_nil]
    exact wsTokens_of_homog t h1 h2
  | cons t u ts h1 h2 h3 hrec ih =>
    show wsTokens (t ++ (u :: ts).flatten) = t :: (u :: ts)
    rw [wsTokens_append t _ h1 h2 (Or.inr ⟨u, ts, ih, Ne.symm h3⟩), ih]

theorem mergeSp_sublist (l : List Char) : (mergeSp l).Sublist l := by
  induction l with
  | nil => exact List.Sublist.refl []
  | cons c rest ih =>
    simp only [mergeSp]
    by_cases h : c = ' ' ∧ (mergeSp rest).take 2 = [' ', ' ']
    · rw [if_pos h]
      exact List.Sublist.cons c ih
    · rw [if_neg h]
      exact List.Sublist.cons₂ c ih

theorem mergeSp_ne_nil (l : List Char) (h : l ≠ []) : mergeSp l ≠ [] := by
  cases l with
  | nil => exact absurd rfl h
  | cons c rest =>
    simp only [mergeSp]
    by_cases hc : c = ' ' ∧ (mergeSp rest).take 2 = [' ', ' ']
    · rw [if_pos hc]
      intro hnil
      rw [hnil] at hc
      simp at hc
    · rw [if_neg hc]
      simp

theorem mergeSp_idem (l : List Char) : mergeSp (mergeSp l) = mergeSp l := by
  induction l with
  | nil => rfl
  | cons c rest ih =>
    simp only [mergeSp]
    by_cases h : c = ' ' ∧ (mergeSp rest).take 2 = [' ', ' ']
    · rw [if_pos h]
      exact ih
    · rw [if_neg h]
      show mergeSp (c :: mergeSp rest) = c :: mergeSp rest
      simp only [mergeSp]
      rw [ih, if_neg h]

theorem mergeSp_append_spacefree (a b : List Char) (h : ∀ c ∈ a, c ≠ ' ') :
    mergeSp (a ++ b) = a ++ mergeSp b := by
  induction a with
  | nil => rfl
  | cons c a' ih =>
    simp only [List.cons_append, mergeSp, List.append_eq]
    rw [ih (fun x hx => h x (List.mem_cons_of_mem c hx))]
    rw [if_neg]
    exact fun hh => h c (List.mem_cons_self c a') hh.1

theorem mergeSp_id_of_spacefree (a : List Char) (h : ∀ c ∈ a, c ≠ ' ') :
    mergeSp a = a := by
  have := mergeSp_append_spacefree a [] h
  simpa [mergeSp] using this

theorem take2_append_iff (A B : List Char)
    (hB : ∀ d, B.head? = some d → d ≠ ' ') :
    (A ++ B).take 2 = [' ', ' '] ↔ A.take 2 = [' ', ' '] := by
  cases A with
  | nil =>
    constructor
    · intro h
      cases B with
      | nil => simp at h
      | cons d B' =>
        have hd := hB d rfl
        simp only [List.nil_append, List.take] at h
        cases B' with
        | nil => simp at h
        | cons e B'' =>
          simp at h
          exact absurd h.1 hd
    · intro h
      simp at h
  | cons x A' =>
    cases A' with
    | nil =>
      constructor
      · intro h
        cases B with
        | nil => simp at h
        | cons d B' =>
          have hd := hB d rfl
          simp at h
          exact absurd h.2 hd
      · intro h
        simp at h
    | cons y A'' => simp

theorem mergeSp_head_ne_space (b : List Char)
    (hb : ∀ d, b.head? = some d → d ≠ ' ') :
    ∀ d, (mergeSp b).head? = some d → d ≠ ' ' := by
  cases b with
  | nil => intro d hd; simp [mergeSp] at hd
  | cons x rest =>
    intro d hd
    have hx := hb x rfl
    simp only [mergeSp] at hd
    rw [if_neg (fun hh => hx hh.1)] at hd
    simp at hd
    exact hd ▸ hx

theorem mergeSp_append_headns (a b : List Char)
    (hb : ∀ d, b.head? = some d → d ≠ ' ') :
    mergeSp (a ++ b) = mergeSp a ++ mergeSp b := by
  induction a with
  | nil => rfl
  | cons c a' ih =>
    simp only [List.cons_append, mergeSp, List.append_eq]
    rw [ih]
    have ht := take2_append_iff (mergeSp a') (mergeSp b)
      (mergeSp_head_ne_space b hb)
    by_cases h : c = ' ' ∧ (mergeSp a').take 2 = [' ', ' ']
    · rw [if_pos ⟨h.1, ht.mpr h.2⟩, if_pos h]
    · rw [if_neg (fun hh => h ⟨hh.1, ht.mp hh.2⟩), if_neg h]
      rfl

theorem mergeSp_flatten_alt (ts : List (List Char)) (h : AltTok ts) :
    mergeSp ts.flatten = (ts.map mergeSp).flatten := by
  induction h with
  | nil => rfl
  | single t h1 h2 =>
    show mergeSp (t ++ []) = mergeSp t ++ []
    simp
  | cons t u ts h1 h2 h3 hrec ih =>
    show mergeSp (t ++ (u :: ts).flatten)
      = mergeSp t ++ ((u :: ts).map mergeSp).flatten
    have hu_ne := altTok_head_ne u ts hrec
    have hu_hom := altTok_head_homog u ts hrec
    by_cases hcls : tokClass t = true
    · have hucls : tokClass u = false := by
        cases hu : tokClass u with
        | false => rfl
        | true => exact absurd (by rw [hcls, hu]) h3
      have hb : ∀ d, ((u :: ts).flatten).head? = some d → d ≠ ' ' := by
        cases u with
        | nil => exact absurd rfl hu_ne
        | cons x u' =>
          intro d hd
          simp only [List.flatten_cons, List.cons_append, List.head?] at hd
          have hx := hu_hom x (List.mem_cons_self x u')
          rw [hucls] at hx
          intro hds
          have hxd : x = d := Option.some_inj.mp hd
          rw [hxd, hds] at hx
          exact absurd hx (by decide)
      rw [mergeSp_append_headns t _ hb, ih]
    · have hcls2 : tokClass t = false := by
        cases hv : tokClass t with
        | false => rfl
        | true => exact absurd hv hcls
      have hsf : ∀ c ∈ t, c ≠ ' ' := by
        intro c hc
        have := h2 c hc
        rw [hcls2] at this
        intro hcs
        rw [hcs] at this
        exact absurd this (by decide)
      rw [mergeSp_append_spacefree t _ hsf, ih,
        mergeSp_id_of_spacefree t hsf]

theorem sub_preserve (t s : List Char) (hs : s ≠ []) (hsub : ∀ c ∈ s, c ∈ t)
    (h2 : homogTok t) : homogTok s ∧ tokClass s = tokClass t := by
  cases s with
  | nil => exact absurd rfl hs
  | cons d r =>
    have hcls : tokClass (d :: r) = tokClass t := by
      show isWS ((d :: r).headD 'a') = tokClass t
      simp only [List.headD_cons]
      exact h2 d (hsub d (List.mem_cons_self d r))
    refine ⟨?_, hcls⟩
    intro x hx
    rw [hcls]
    exact h2 x (hsub x hx)

theorem mem_trWtoken (t : List Char) (c : Char) (hc : c ∈ trWtoken t) :
    c ∈ t ∨ c = '\n' := by
  simp only [trWtoken] at hc
  by_cases h1 : isWS (t.headD 'a')
  · rw [if_pos h1] at hc
    by_cases h2 : 2 ≤ t.count '\n'
    · rw [if_pos h2] at hc
      rcases List.mem_append.mp hc with h3 | h3
      · by_cases h4 : (t.takeWhile (fun c => c ≠ '\n')).getLast? = some '\r'
        · rw [if_pos h4] at h3
          exact Or.inl ((List.takeWhile_sublist _).subset
            ((List.dropLast_sublist _).subset h3))
        · rw [if_neg h4] at h3
          exact Or.inl ((List.takeWhile_sublist _).subset h3)
      · simp at h3
        exact Or.inr h3
    · rw [if_neg h2] at hc
      exact Or.inl hc
  · rw [if_neg h1] at hc
    exact Or.inl hc

theorem trWtoken_preserve (t : List Char) (h1 : t ≠ []) (h2 : homogTok t) :
    trWtoken t ≠ [] ∧ homogTok (trWtoken t) ∧
    tokClass (trWtoken t) = tokClass t := by
  by_cases hws : isWS (t.headD 'a')
  · by_cases hcnt : 2 ≤ t.count '\n'
    · have hsh : trWtoken t = (if (t.takeWhile (fun c => c ≠ '\n')).getLast?
          = some '\r' then (t.takeWhile (fun c => c ≠ '\n')).dropLast
          else t.takeWhile (fun c => c ≠ '\n')) ++ ['\n', '\n'] := by
        simp only [trWtoken]
        rw [if_pos hws, if_pos hcnt]
      have hne : trWtoken t ≠ [] := by
        rw [hsh]
        simp
      have hmem : ∀ c ∈ trWtoken t, c ∈ t := by
        intro c hc
        rcases mem_trWtoken t c hc with h | h
        · exact h
        · rw [h]
          have := List.count_pos_iff.mp (by omega : 0 < t.count '\n')
          exact this
      obtain ⟨ha, hb⟩ := sub_preserve t (trWtoken t) hne hmem h2
      exact ⟨hne, ha, hb⟩
    · have : trWtoken t = t := by
        simp only [trWtoken]
        rw [if_pos hws, if_neg hcnt]
      rw [this]
      exact ⟨h1, h2, rfl⟩
  · have : trWtoken t = t := by
      simp only [trWtoken]
      rw [if_neg hws]
    rw [this]
    exact ⟨h1, h2, rfl⟩

theorem map_tok_preserve (f : Char → Char) (hf : ∀ c, isWS (f c) = isWS c)
    (t : List Char) (h1 : t ≠ []) (h2 : homogTok t) :
    t.map f ≠ [] ∧ homogTok (t.map f) ∧ tokClass (t.map f) = tokClass t := by
  cases t with
  | nil => exact absurd rfl h1
  | cons c rest =>
    refine ⟨by simp, ?_, ?_⟩
    · intro x hx
      rcases List.mem_map.mp hx with ⟨y, hy, hxy⟩
      rw [← hxy]
      show isWS (f y) = tokClass ((c :: rest).map f)
      rw [hf y]
      have : tokClass ((c :: rest).map f) = tokClass (c :: rest) := by
        show isWS (((c :: rest).map f).headD 'a') = _
        simp only [List.map_cons, List.headD_cons]
        rw [hf c]
        rfl
      rw [this]
      exact h2 y hy
    · show isWS (((c :: rest).map f).headD 'a') = _
      simp only [List.map_cons, List.headD_cons]
      rw [hf c]
      rfl

theorem mergeSp_preserve (t : List Char) (h1 : t ≠ []) (h2 : homogTok t) :
    mergeSp t ≠ [] ∧ homogTok (mergeSp t) ∧
    tokClass (mergeSp t) = tokClass t := by
  have hne := mergeSp_ne_nil t h1
  obtain ⟨ha, hb⟩ := sub_preserve t (mergeSp t) hne
    (fun c hc => (mergeSp_sublist t).subset hc) h2
  exact ⟨hne, ha, hb⟩

theorem altTok_map (F : List Char → List Char)
    (hF : ∀ t, t ≠ [] → homogTok t →
      (F t ≠ [] ∧ homogTok (F t) ∧ tokClass (F t) = tokClass t))
    (ts : List (List Char)) (h : AltTok ts) : AltTok (ts.map F) := by
  induction h with
  | nil => exact AltTok.nil
  | single t h1 h2 =>
    obtain ⟨a, b, c⟩ := hF t h1 h2
    exact AltTok.single _ a b
  | cons t u ts h1 h2 h3 hrec ih =>
    obtain ⟨a, b, c⟩ := hF t h1 h2
    obtain ⟨a2, b2, c2⟩ := hF u (altTok_head_ne u ts hrec)
      (altTok_head_homog u ts hrec)
    exact AltTok.cons _ _ _ a b (by rw [c, c2]; exact h3) ih

theorem isWS_tabfun (c : Char) :
    isWS (if c = '\t' then ' ' else c) = isWS c := by
  by_cases h : c = '\t'
  · rw [if_pos h, h]
    decide
  · rw [if_neg h]

theorem count_nl_map_tabfun (l : List Char) :
    (l.map (fun c => if c = '\t' then ' ' else c)).count '\n' = l.count '\n' := by
  induction l with
  | nil => rfl
  | cons c rest ih =>
    simp only [List.map_cons, List.count_cons, ih]
    have : ((if c = '\t' then ' ' else c) == '\n') = (c == '\n') := by
      by_cases h : c = '\t'
      · rw [if_pos h, h]
        decide
      · rw [if_neg h]
    rw [this]

theorem trW_of_count_le (t : List Char) (h : ¬ 2 ≤ t.count '\n') :
    trWtoken t = t := by
  simp only [trWtoken]
  by_cases hws : isWS (t.headD 'a')
  · rw [if_pos hws, if_neg h]
  · rw [if_neg hws]

theorem trW_of_not_ws (t : List Char) (h : isWS (t.headD 'a') = false) :
    trWtoken t = t := by
  simp only [trWtoken]
  rw [if_neg (by rw [h]; exact Bool.false_ne_true)]

theorem trW_shape (t : List Char) (hws : isWS (t.headD 'a') = true)
    (hcr : ∀ c ∈ t, c ≠ '\r') (hcnt : 2 ≤ t.count '\n') :
    trWtoken t = t.takeWhile (fun c => c ≠ '\n') ++ ['\n', '\n'] := by
  simp only [trWtoken]
  rw [if_pos hws, if_pos hcnt, if_neg]
  intro hlast
  have hmem : '\r' ∈ t.takeWhile (fun c => c ≠ '\n') :=
    List.mem_of_mem_getLast? hlast
  exact hcr '\r' ((List.takeWhile_sublist _).subset hmem) rfl

theorem trW_fix_sanitized (q : List Char) (hq : ∀ c ∈ q, c ≠ '\n')
    (hqcr : ∀ c ∈ q, c ≠ '\r') (hqws : ∀ c ∈ q, isWS c = true) :
    trWtoken (q ++ ['\n', '\n']) = q ++ ['\n', '\n'] := by
  have hcount : (q ++ ['\n', '\n']).count '\n' = 2 := by
    rw [List.count_append]
    have h0 : q.count '\n' = 0 :=
      List.count_eq_zero.mpr (fun h => hq '\n' h rfl)
    rw [h0]
    rfl
  have hws : isWS ((q ++ ['\n', '\n']).headD 'a') = true := by
    cases q with
    | nil => decide
    | cons c r =>
      simp only [List.cons_append, List.headD_cons]
      exact hqws c (List.mem_cons_self c r)
  have h2 : 2 ≤ (q ++ ['\n', '\n']).count '\n' := by rw [hcount]
  have htw : (q ++ ['\n', '\n']).takeWhile (fun c => c ≠ '\n') = q := by
    rw [takeWhile_append_of_all _ q _ (fun c hc => by simp [hq c hc])]
    simp
  rw [trW_shape _ hws ?_ h2, htw]
  · intro c hc
    rcases List.mem_append.mp hc with h | h
    · exact hqcr c h
    · simp at h
      rw [h]
      decide

theorem altTok_mem_homog (ts : List (List Char)) (h : AltTok ts) :
    ∀ t ∈ ts, homogTok t := by
  induction h with
  | nil => intro t ht; simp at ht
  | single u h1 h2 =>
    intro t ht
    simp at ht
    rw [ht]
    exact h2
  | cons u v ts h1 h2 h3 hrec ih =>
    intro t ht
    rcases List.mem_cons.mp ht with h4 | h4
    · rw [h4]
      exact h2
    · exact ih t h4

theorem tabFix_id_of_no_tab (t : List Char) (h : ∀ c ∈ t, c ≠ '\t') :
    tabFix t = t := by
  show t.map (fun c => if c = '\t' then ' ' else c) = t
  have h5 : t.map (fun c => if c = '\t' then ' ' else c) = t.map id :=
    List.map_congr_left (fun c hc => if_neg (h c hc))
  rw [h5, List.map_id]

theorem sanitizePlainChars_idem (l : List Char) (hcr : '\r' ∉ l) :
    sanitizePlainChars (sanitizePlainChars l) = sanitizePlainChars l := by
  have hT : AltTok (wsTokens l) := altTok_wsTokens l
  have hFpres : ∀ t, t ≠ [] → homogTok t →
      (mergeSp ((trWtoken t).map (fun c => if c = '\t' then ' ' else c)) ≠ [] ∧
       homogTok (mergeSp ((trWtoken t).map
         (fun c => if c = '\t' then ' ' else c))) ∧
       tokClass (mergeSp ((trWtoken t).map
         (fun c => if c = '\t' then ' ' else c))) = tokClass t) := by
    intro t h1 h2
    obtain ⟨a1, b1, c1⟩ := trWtoken_preserve t h1 h2
    obtain ⟨a2, b2, c2⟩ := map_tok_preserve _ isWS_tabfun _ a1 b1
    obtain ⟨a3, b3, c3⟩ := mergeSp_preserve _ a2 b2
    exact ⟨a3, b3, by rw [c3, c2, c1]⟩
  have hdecomp : sanitizePlainChars l
      = ((wsTokens l).map (fun t => mergeSp ((trWtoken t).map
          (fun c => if c = '\t' then ' ' else c)))).flatten := by
    show mergeSp (tabFix (mergeNL l)) = _
    have h1 : tabFix (mergeNL l)
        = (((wsTokens l).map trWtoken).map
            (List.map (fun c => if c = '\t' then ' ' else c))).flatten := by
      show (((wsTokens l).map trWtoken).flatten).map _ = _
      rw [List.map_flatten]
    have hT2 : AltTok (((wsTokens l).map trWtoken).map
        (List.map (fun c => if c = '\t' then ' ' else c))) :=
      altTok_map _ (map_tok_preserve _ isWS_tabfun) _
        (altTok_map _ trWtoken_preserve _ hT)
    rw [h1, mergeSp_flatten_alt _ hT2, List.map_map, List.map_map]
    rfl
  have htok : wsTokens (sanitizePlainChars l)
      = (wsTokens l).map (fun t => mergeSp ((trWtoken t).map
          (fun c => if c = '\t' then ' ' else c))) := by
    rw [hdecomp]
    exact wsTokens_flatten_alt _ (altTok_map _ hFpres _ hT)
  have hfix : ∀ u ∈ wsTokens (sanitizePlainChars l), trWtoken u = u := by
    rw [htok]
    intro u hu
    rcases List.mem_map.mp hu with ⟨t, ht, rfl⟩
    have h1 : t ≠ [] := wsTokens_ne_nil l t ht
    have h2 : homogTok t := altTok_mem_homog _ hT t ht
    have hcrt : ∀ c ∈ t, c ≠ '\r' :=
      fun c hc hceq => hcr (hceq ▸ mem_of_mem_wsTokens l t c ht hc)
    by_cases hcls : tokClass t = true
    · have hwst : ∀ c ∈ t, isWS c = true := fun c hc => by rw [h2 c hc, hcls]
      by_cases hcnt : 2 ≤ t.count '\n'
      · have hhead : isWS (t.headD 'a') = true := by
          cases t with
          | nil => exact absurd rfl h1
          | cons c r => simpa using hwst c (List.mem_cons_self c r)
        rw [trW_shape t hhead hcrt hcnt]
        rw [List.map_append]
        have hnnmap : (['\n', '\n'] : List Char).map
            (fun c => if c = '\t' then ' ' else c) = ['\n', '\n'] := by decide
        rw [hnnmap]
        have hsplit : mergeSp ((t.takeWhile (fun c => c ≠ '\n')).map
              (fun c => if c = '\t' then ' ' else c) ++ ['\n', '\n'])
            = mergeSp ((t.takeWhile (fun c => c ≠ '\n')).map
              (fun c => if c = '\t' then ' ' else c)) ++ ['\n', '\n'] := by
          rw [mergeSp_append_headns _ _ ?_]
          · rw [mergeSp_id_of_spacefree (['\n', '\n'] : List Char) (by decide)]
          · intro d hd
            simp only [List.head?] at hd
            intro hds
            rw [hds] at hd
            exact absurd (Option.some_inj.mp hd) (by decide)
        rw [hsplit]
        apply trW_fix_sanitized
        · intro c hc
          have hc2 := (mergeSp_sublist _).subset hc
          rcases List.mem_map.mp hc2 with ⟨y, hy, hyc⟩
          have hyn : y ≠ '\n' := by simpa using List.mem_takeWhile_imp hy
          by_cases hyt : y = '\t'
          · rw [if_pos hyt] at hyc
            rw [← hyc]
            decide
          · rw [if_neg hyt] at hyc
            rw [← hyc]
            exact hyn
        · intro c hc
          have hc2 := (mergeSp_sublist _).subset hc
          rcases List.mem_map.mp hc2 with ⟨y, hy, hyc⟩
          have hyr : y ≠ '\r' := hcrt y ((List.takeWhile_sublist _).subset hy)
          by_cases hyt : y = '\t'
          · rw [if_pos hyt] at hyc
            rw [← hyc]
            decide
          · rw [if_neg hyt] at hyc
            rw [← hyc]
            exact hyr
        · intro c hc
          have hc2 := (mergeSp_sublist _).subset hc
          rcases List.mem_map.mp hc2 with ⟨y, hy, hyc⟩
          rw [← hyc, isWS_tabfun]
          exact hwst y ((List.takeWhile_sublist _).subset hy)
      · rw [trW_of_count_le t hcnt]
        apply trW_of_count_le
        intro habs
        apply hcnt
        calc 2 ≤ (mergeSp (t.map (fun c => if c = '\t' then ' ' else c))).count
              '\n' := habs
          _ ≤ (t.map (fun c => if c = '\t' then ' ' else c)).count '\n' :=
              (mergeSp_sublist _).count_le '\n'
          _ = t.count '\n' := count_nl_map_tabfun t
    · have hclsf : tokClass t = false := by
        cases h : tokClass t with
        | false => rfl
        | true => exact absurd h hcls
      have hnw : ∀ c ∈ t, isWS c = false := fun c hc => by rw [h2 c hc, hclsf]
      have htr : trWtoken t = t := by
        apply trW_of_not_ws
        cases t with
        | nil => exact absurd rfl h1
        | cons c r => simpa using hnw c (List.mem_cons_self c r)
      rw [htr]
      have htab : t.map (fun c => if c = '\t' then ' ' else c) = t := by
        have := tabFix_id_of_no_tab t (fun c hc hctab => by
          have h6 := hnw c hc
          rw [hctab] at h6
          exact absurd h6 (by decide))
        exact this
      rw [htab]
      have hsp : mergeSp t = t := mergeSp_id_of_spacefree t
        (fun c hc hcsp => by
          have h6 := hnw c hc
          rw [hcsp] at h6
          exact absurd h6 (by decide))
      rw [hsp, htr]
  have hNL : mergeNL (sanitizePlainChars l) = sanitizePlainChars l := by
    show ((wsTokens (sanitizePlainChars l)).map trWtoken).flatten = _
    have h5 : (wsTokens (sanitizePlainChars l)).map trWtoken
        = (wsTokens (sanitizePlainChars l)).map id := List.map_congr_left hfix
    rw [h5, List.map_id, wsTokens_flatten]
  have hTab : tabFix (sanitizePlainChars l) = sanitizePlainChars l := by
    apply tabFix_id_of_no_tab
    intro c hc hct
    have hc2 : c ∈ tabFix (mergeNL l) := (mergeSp_sublist _).subset hc
    show False
    rcases List.mem_map.mp hc2 with ⟨y, hy, hyc⟩
    by_cases hyt : y = '\t'
    · rw [if_pos hyt] at hyc
      rw [← hyc] at hct
      exact absurd hct (by decide)
    · rw [if_neg hyt] at hyc
      rw [← hyc] at hct
      exact hyt hct
  have hSp : mergeSp (sanitizePlainChars l) = sanitizePlainChars l := by
    show mergeSp (mergeSp (tabFix (mergeNL l))) = _
    exact mergeSp_idem _
  show mergeSp (tabFix (mergeNL (sanitizePlainChars l))) = _
  rw [hNL, hTab, hSp]

theorem sanitizePlainChars_ne_nil (l : List Char) (h : l ≠ []) :
    sanitizePlainChars l ≠ [] := by
  have hmnl : mergeNL l ≠ [] := by
    intro habs
    have htok_ne : wsTokens l ≠ [] := by
      intro h2
      apply h
      rw [← wsTokens_flatten l, h2]
      rfl
    cases htk : wsTokens l with
    | nil => exact htok_ne htk
    | cons t ts =>
      have h1 : t ≠ [] := wsTokens_ne_nil l t (by rw [htk]; exact List.mem_cons_self t ts)
      have h2 : homogTok t := altTok_mem_homog _ (altTok_wsTokens l) t
        (by rw [htk]; exact List.mem_cons_self t ts)
      have h3 : trWtoken t ≠ [] := (trWtoken_preserve t h1 h2).1
      apply h3
      have h4 := List.flatten_eq_nil_iff.mp (by rw [← habs]; rfl)
      have h5 : trWtoken t ∈ (wsTokens l).map trWtoken := by
        rw [htk]
        exact List.mem_map.mpr ⟨t, List.mem_cons_self t ts, rfl⟩
      exact h4 (trWtoken t) h5
  have htf : tabFix (mergeNL l) ≠ [] := by
    intro habs
    exact hmnl (List.map_eq_nil_iff.mp habs)
  exact mergeSp_ne_nil _ htf

/-- C6 counterexample: folding is not idempotent, on either branch.  On the
plain-text branch the input `"\r\r\n\n"` folds to `"\r\n\n"` (the newline
regex match starts at the `\r` immediately preceding the first `\n`,
leaving the earlier `\r` in place), and refolding that output gives
`"\n\n"`.  On the HTML branch, ammonia serializes the raw no-break space of
`"a\n\xa0\nb"` as the literal `&nbsp;`, which shields the surrounding
newlines from the newline-merging regex; the `(\t|&nbsp;)` pass then turns
it into a plain space, so the fold returns `"a\n \nb"` — a string the
newline regex does match — and refolding it as a plain-text part gives
`"a\n\nb"`. -/
theorem c6_counterexample :
    (Msg.fold_text_plain_parts
        { Msg.default with parts := [Part.textPlain ⟨"\r\r\n\n"⟩] } = "\r\n\n"
      ∧ Msg.fold_text_plain_parts
        { Msg.default with parts := [Part.textPlain ⟨"\r\n\n"⟩] } = "\n\n")
    ∧ (Msg.fold_text_plain_parts
        { Msg.default with parts := [Part.textHtml ⟨"a\n\xa0\nb"⟩] } = "a\n \nb"
      ∧ Msg.fold_text_plain_parts
        { Msg.default with parts := [Part.textPlain ⟨"a\n \nb"⟩] } = "a\n\nb") := by
  exact ⟨⟨rfl, rfl⟩, ⟨rfl, rfl⟩⟩

/-- C6 (amended): the plain-text branch of `fold_text_plain_parts` is
idempotent on carriage-return-free content: for every entity whose
concatenated plain-text content is non-empty and contains no `\r`,
replacing its parts with a single PlainText part holding the folded string
and folding again returns the same string (in particular a single
meaningful blank line is left unaltered). -/
theorem c6_fold_plain_idempotent (m : Msg)
    (hne : (foldPartsAccum m.parts).1 ≠ "")
    (hcr : '\r' ∉ (foldPartsAccum m.parts).1.data) :
    Msg.fold_text_plain_parts
        { Msg.default with
            parts := [Part.textPlain ⟨m.fold_text_plain_parts⟩] }
      = m.fold_text_plain_parts := by
  have h1 : m.fold_text_plain_parts
      = sanitizePlain (foldPartsAccum m.parts).1 := by
    simp only [Msg.fold_text_plain_parts]
    rw [if_neg hne]
  have hsne : m.fold_text_plain_parts ≠ "" := by
    rw [h1]
    intro habs
    have hd : sanitizePlainChars (foldPartsAccum m.parts).1.data = [] :=
      congrArg String.data habs
    have hdne : (foldPartsAccum m.parts).1.data ≠ [] := by
      intro h2
      apply hne
      have : (foldPartsAccum m.parts).1 = String.mk [] := String.ext h2
      rw [this]
    exact sanitizePlainChars_ne_nil _ hdne hd
  have hacc : foldPartsAccum [Part.textPlain ⟨m.fold_text_plain_parts⟩]
      = (m.fold_text_plain_parts, "") := rfl
  show (if (foldPartsAccum [Part.textPlain ⟨m.fold_text_plain_parts⟩]).1 = ""
      then sanitizeHtml (foldPartsAccum
        [Part.textPlain ⟨m.fold_text_plain_parts⟩]).2
      else sanitizePlain (foldPartsAccum
        [Part.textPlain ⟨m.fold_text_plain_parts⟩]).1)
    = m.fold_text_plain_parts
  rw [hacc, if_neg hsne, h1]
  show String.mk (sanitizePlainChars
      (sanitizePlainChars (foldPartsAccum m.parts).1.data))
    = String.mk (sanitizePlainChars (foldPartsAccum m.parts).1.data)
  rw [sanitizePlainChars_idem _ hcr]

/-- Witness for the amended C6 theorem: the concrete plain-text content
`"a  b\n\nc"` (with one meaningful blank line and a two-space run) folds to
itself on refolding. -/
theorem c6_witness :
    Msg.fold_text_plain_parts
        { Msg.default with parts := [Part.textPlain ⟨Msg.fold_text_plain_parts
            { Msg.default with parts := [Part.textPlain ⟨"a  b\n\nc"⟩] }⟩] }
      = Msg.fold_text_plain_parts
          { Msg.default with parts := [Part.textPlain ⟨"a  b\n\nc"⟩] } :=
  c6_fold_plain_idempotent
    { Msg.default with parts := [Part.textPlain ⟨"a  b\n\nc"⟩] }
    (by decide) (by decide)

/-! ## Theorems for C9 -/

/-- C9 counterexample to the universal panic statement: with `encrypt` set
and `to` absent, an attachment whose declared content type is the empty
string makes `into_sendable_msg` return the mime-parse error — the
attachment loop runs before the encrypt block, so its `?` exit preempts the
`unwrap` and no panic happens. -/
theorem c9_counterexample :
    Msg.into_sendable_msg
        { Msg.default with
            encrypt := true,
            parts := [Part.binary ⟨"f.bin", "", []⟩] }
        (fun e => Except.ok (some e))
      = SendOutcome.err "cannot parse content type of attachment f.bin" := rfl

/-- C9 (amended): when `encrypt` is true and every attachment content type
parses, `into_sendable_msg` panics — on the double `unwrap` of
`self.to.as_ref().unwrap().first().unwrap()` — exactly when `to` is absent
or the empty list; the operation is total (no panic) precisely under the
precondition that `to` holds at least one address. -/
theorem c9_encrypt_unwrap_panic (m : Msg)
    (pgp : String → Except String (Option String))
    (henc : m.encrypt = true)
    (hmime : attachMimeCheck m.attachments = Except.ok ()) :
    (∃ s, Msg.into_sendable_msg m pgp = SendOutcome.panic s) ↔
      (m.«to» = none ∨ m.«to» = some []) := by
  unfold Msg.into_sendable_msg
  rw [hmime, henc]
  simp only [if_true]
  cases hto : m.«to» with
  | none => simp
  | some tl =>
    cases tl with
    | nil => simp
    | cons a rest =>
      constructor
      · rintro ⟨s, hs⟩
        cases hp : pgp a.email with
        | error e => simp [hp] at hs
        | ok o =>
          cases o with
          | none => simp [hp] at hs
          | some enc => simp [hp] at hs
      · rintro (h | h)
        · exact absurd h (by simp)
        · exact absurd h (by simp)

/-- Witness for the amended C9 theorem: for the default entity with
`encrypt` set (no attachments, `to` absent), the panic characterization
evaluates concretely. -/
theorem c9_witness :
    ((∃ s, Msg.into_sendable_msg { Msg.default with encrypt := true }
        (fun e => Except.ok (some e)) = SendOutcome.panic s) ↔
      (({ Msg.default with encrypt := true } : Msg).«to» = none ∨
       ({ Msg.default with encrypt := true } : Msg).«to» = some [])) :=
  c9_encrypt_unwrap_panic { Msg.default with encrypt := true }
    (fun e => Except.ok (some e)) rfl rfl
